import Mathlib

/-!
# Union-closed families: the Ypsilon algorithm of `main.cc`

A shallow embedding of the container `Set<Tp>`, of `Bitset` and of the stages
`MakeFamilyFromBase`, `Sigma`, `MakeD`, `MakeBeta` and `MakeAltEta`, followed by
theorems about them.

Conventions of the embedding.
* `std::vector<Tp> Elements_` is a `List`; `std::set<Tp> ElementsLookup_` is a
  `Finset` of keys, the key of an element being what `operator<` of `Tp`
  compares: the integer itself for `int`, the member `ElementsLookup_` for
  `Set<int>`.
* `assert` and positional access are fallible: they return `Except Fault`.
* `size_t` values are natural numbers; the subtractions that may wrap around
  are written with `usub`.
* A counted loop `for (size_t i = 0; i < n; i++)` is a monadic fold over
  `List.range n`, a range-based loop a fold over `Elements_`; the loops driven
  by a `Bitset` and the `while` loop of `main` take an iteration budget and
  fail with `Fault.fuel` when it is used up.
* The copies `Set<int> Union = Enforced` and `Set<int> h = h_` are `Set.copy`;
  the copy a range-based loop or `push_back` makes of an element is not
  written out.
* The operand `other` of `operator=`, `|=`, `+=` and `-=` is an object other
  than the receiver. The calls whose operand is the receiver itself are
  `Set.assignSelf`, `Set.orAssignSelf`, `Set.addAssignSelf` and
  `Set.subAssignSelf`; for `operator&=` the two cases do not differ.
* The theorems are about sets and families that satisfy the invariant
  `Set.Inv` of the container (`FamilyInv` for a family and its members).
-/

set_option linter.unusedSectionVars false
set_option linter.unusedVariables false

namespace UnionClosed

/-- The ways an execution can go wrong. -/
inductive Fault where
  /-- An `assert` does not hold. -/
  | assertion
  /-- A positional access `Elements_[index]` outside the vector. -/
  | outOfRange
  /-- The iteration budget of a loop of the embedding is used up. -/
  | fuel
  /-- A range-based loop goes on after a modification of the vector it ranges
  over has invalidated its iterators (undefined behaviour). -/
  | undefined
  deriving DecidableEq, Repr

instance {ε α : Type} [DecidableEq ε] [DecidableEq α] : DecidableEq (Except ε α) :=
  fun a b =>
    match a, b with
    | .ok x, .ok y => if h : x = y then isTrue (by rw [h]) else isFalse (by intro e; cases e; exact h rfl)
    | .error x, .error y =>
      if h : x = y then isTrue (by rw [h]) else isFalse (by intro e; cases e; exact h rfl)
    | .ok _, .error _ => isFalse (by intro e; cases e)
    | .error _, .ok _ => isFalse (by intro e; cases e)

/-- The key under which `std::set<Tp>` files an element: elements with the same
key are equivalent for `operator<` and equal for `operator==`. -/
class Key (α : Type) (κ : outParam Type) where
  /-- The key of an element. -/
  key : α → κ

instance : Key Int Int := ⟨fun x => x⟩

/-- The class template `Set<Tp>`: the vector `Elements_` and the lookup table
`ElementsLookup_`. -/
structure Set (α : Type) {κ : Type} [Key α κ] where
  /-- The member `std::vector<Tp> Elements_`. -/
  Elements_ : List α
  /-- The member `std::set<Tp> ElementsLookup_`, as the set of the keys it holds. -/
  ElementsLookup_ : Finset κ

instance {α κ : Type} [Key α κ] : Key (Set α) (Finset κ) := ⟨fun s => s.ElementsLookup_⟩

instance {α κ : Type} [Key α κ] [DecidableEq α] [DecidableEq κ] : DecidableEq (Set α) :=
  fun a b =>
    if h : a.Elements_ = b.Elements_ ∧ a.ElementsLookup_ = b.ElementsLookup_ then
      isTrue (by cases a; cases b; simp_all)
    else
      isFalse (by rintro rfl; exact h ⟨rfl, rfl⟩)

/-- The type of `Set<Set<int>>`. -/
abbrev Family := Set (Set Int)

/-- Subtraction of `size_t`: it wraps around when the result would be negative. -/
def usub (a b : Nat) : Nat := if b ≤ a then a - b else 2 ^ 64 - (b - a)

namespace Set

variable {α κ : Type} [Key α κ] [DecidableEq κ]

/-- The default constructor `Set()`. -/
def empty : Set α := ⟨[], ∅⟩

/-- The method `Has`. -/
def Has (s : Set α) (element : α) : Bool := decide (Key.key element ∈ s.ElementsLookup_)

/-- The method `Clear`. -/
def Clear (_s : Set α) : Set α := ⟨[], ∅⟩

/-- The method `IsEmpty`. -/
def IsEmpty (s : Set α) : Bool := decide (s.ElementsLookup_ = ∅)

/-- The method `IsSingleton`. -/
def IsSingleton (s : Set α) : Bool := decide (s.ElementsLookup_.card = 1)

/-- The methods `operator[]` and `Get`. -/
def Get (s : Set α) (index : Nat) : Except Fault α :=
  match s.Elements_[index]? with
  | some e => .ok e
  | none => .error .outOfRange

/-- The method `Add`: the insertion into the lookup table says whether the
element is new, and only a new element is pushed on the vector. -/
def Add (s : Set α) (new_element : α) : Set α :=
  let second := decide (Key.key new_element ∉ s.ElementsLookup_)
  ⟨if second then s.Elements_ ++ [new_element] else s.Elements_,
   insert (Key.key new_element) s.ElementsLookup_⟩

/-- The method `TryRemove`; `std::find` compares with `operator==` of `Tp`,
that is by key. -/
def TryRemove (s : Set α) (old_element : α) : Except Fault (Bool × Set α) :=
  if Key.key old_element ∈ s.ElementsLookup_ then
    if s.Elements_.any (fun e => decide (Key.key e = Key.key old_element)) then
      .ok (true, ⟨s.Elements_.eraseP (fun e => decide (Key.key e = Key.key old_element)),
                  s.ElementsLookup_.erase (Key.key old_element)⟩)
    else .error .assertion
  else .ok (false, s)

/-- The method `Remove`. -/
def Remove (s : Set α) (old_element : α) : Except Fault (Set α) :=
  if Key.key old_element ∈ s.ElementsLookup_ then
    (s.TryRemove old_element).map Prod.snd
  else .error .assertion

/-- The method `Count`, with its assertion. -/
def Count (s : Set α) : Except Fault Nat :=
  if s.Elements_.length = s.ElementsLookup_.card then .ok s.Elements_.length
  else .error .assertion

/-- The constructors from a sequence of elements (`std::vector`,
`std::initializer_list`, and the copy constructor applied to `Elements_`). -/
def ofList (elements : List α) : Set α := elements.foldl Add empty

/-- The copy constructor `Set(const Set<Tp> &)`. -/
def copy (elements : Set α) : Set α := ofList elements.Elements_

/-- The method `operator=`, for an operand other than the receiver. -/
def assign (s other : Set α) : Set α := other.Elements_.foldl Add s.Clear

/-- The method `operator|=`, for an operand other than the receiver. -/
def orAssign (s other : Set α) : Set α := other.Elements_.foldl Add s

/-- The method `operator+=`, for an operand other than the receiver. -/
def addAssign (s other : Set α) : Set α := other.Elements_.foldl Add s

/-- The method `operator|=` with the receiver itself as operand: the loop ranges
over the vector that `Add` pushes on, so a call of `Add` that pushes
invalidates the iteration; a call of `Add` on a present element changes
nothing. -/
def orAssignSelf (s : Set α) : Except Fault (Set α) :=
  s.Elements_.foldlM (fun (h : Set α) element =>
    if Key.key element ∈ h.ElementsLookup_ then pure (h.Add element)
    else .error .undefined) s

/-- The method `operator+=` with the receiver itself as operand: the same loop
as `operator|=`. -/
def addAssignSelf (s : Set α) : Except Fault (Set α) :=
  s.Elements_.foldlM (fun (h : Set α) element =>
    if Key.key element ∈ h.ElementsLookup_ then pure (h.Add element)
    else .error .undefined) s

/-- The method `operator=` with the receiver itself as operand: `Clear` empties
the operand as well, and the loop ranges over the emptied vector. -/
def assignSelf (s : Set α) : Except Fault (Set α) := s.Clear.orAssignSelf

/-- The method `operator&=`: the loop pushes every element of the receiver that
`other` has on `v_common` and inserts it into `s_common`; the pair of the two
is the state of the loop. -/
def andAssign (s other : Set α) : Set α :=
  let common := s.Elements_.foldl (fun (c : List α × Finset κ) element =>
    if other.Has element then (c.1 ++ [element], insert (Key.key element) c.2) else c) ([], ∅)
  ⟨common.1, common.2⟩

/-- The method `operator-=`, for an operand other than the receiver. -/
def subAssign (s other : Set α) : Except Fault (Set α) :=
  other.Elements_.foldlM (fun (h : Set α) element => (h.TryRemove element).map Prod.snd) s

/-- The method `operator-=` with the receiver itself as operand: the loop ranges
over the vector that `TryRemove` erases from, so a call of `TryRemove` that
removes its element invalidates the iteration. -/
def subAssignSelf (s : Set α) : Except Fault (Set α) :=
  s.Elements_.foldlM (fun (h : Set α) element => do
    let r ← h.TryRemove element
    if r.1 then .error .undefined else pure r.2) s

/-- The method `operator==`. -/
def eq (s other : Set α) : Bool := decide (s.ElementsLookup_ = other.ElementsLookup_)

/-- The method `operator!=`. -/
def ne (s other : Set α) : Bool := decide (s.ElementsLookup_ ≠ other.ElementsLookup_)

/-- The method `Replace`, the identifier `new_elem` of its second statement read
as the parameter `new_element`: the old element is erased from the lookup
table, the new one is stored at `index` and inserted into the lookup table. -/
def Replace (s : Set α) (index : Nat) (new_element : α) : Except Fault (Set α) :=
  match s.Elements_[index]? with
  | some old =>
    .ok ⟨s.Elements_.set index new_element,
         insert (Key.key new_element) (s.ElementsLookup_.erase (Key.key old))⟩
  | none => .error .outOfRange

/-- The free function `operator-`. -/
def sub (left right : Set α) : Set α :=
  left.Elements_.foldl (fun (ret : Set α) element =>
    if !right.Has element then ret.Add element else ret) empty

/-- The free function `operator+`. -/
def add (left right : Set α) : Set α :=
  right.Elements_.foldl Add (left.Elements_.foldl Add empty)

/-- The free function `operator|`. -/
def or (left right : Set α) : Set α :=
  right.Elements_.foldl Add (left.Elements_.foldl Add empty)

/-- The free function `operator&`: the test is `ret.Has(element)`, on the
result under construction. -/
def and (left _right : Set α) : Set α :=
  left.Elements_.foldl (fun (ret : Set α) element =>
    if ret.Has element then ret.Add element else ret) empty

end Set

/-- The function template `IsSubset`. -/
def IsSubset {α κ : Type} [Key α κ] [DecidableEq κ] (left right : Set α) : Bool :=
  left.Elements_.all (fun element => right.Has element)

/-- The class `Bitset`. -/
structure Bitset where
  /-- The member `std::vector<bool> Bits_`. -/
  Bits_ : List Bool
  deriving DecidableEq, Repr

namespace Bitset

/-- The method `Count`. -/
def Count (b : Bitset) : Nat := b.Bits_.length

/-- The method `Has`. -/
def Has (b : Bitset) (index : Nat) : Bool := b.Bits_.getD index false

/-- The loop of `operator++` from a position on: the bits from there on and the
final value of `carry`. -/
def ripple : List Bool → List Bool × Bool
  | [] => ([], true)
  | true :: bits => ((false :: (ripple bits).1), (ripple bits).2)
  | false :: bits => (true :: bits, false)

/-- The method `operator++`. -/
def incr (b : Bitset) : Bitset :=
  if (ripple b.Bits_).2 then ⟨(ripple b.Bits_).1 ++ [true]⟩ else ⟨(ripple b.Bits_).1⟩

/-- The value of a bit vector: the sum of `2 ^ i` over the indices `i` whose bit
is true. -/
def value (b : Bitset) : Nat :=
  ∑ i ∈ Finset.range b.Count, if b.Has i then 2 ^ i else 0

/-- The loop `for (Bitset bitset; bitset.Count() <= n; ++bitset)` of
`MakeFamilyFromBase`, from the state `bitset` on, with a body that records the
pattern it visits. -/
def visit (n : Nat) : Nat → Bitset → List Bitset → Except Fault (List Bitset)
  | 0, _, _ => .error .fuel
  | fuel + 1, bitset, visited =>
    if bitset.Count ≤ n then visit n fuel bitset.incr (visited ++ [bitset])
    else pure visited

/-- The patterns the loop visits when it starts from the default-constructed
`Bitset`. -/
def enumerate (n fuel : Nat) : Except Fault (List Bitset) := visit n fuel ⟨[]⟩ []

end Bitset

/-- The loop over `index` of `MakeFamilyFromBase`: the union of the members of
`Base` whose bit is set; `n` is the value of `Base.Count()`. -/
def MakeFamilyFromBase.union (Base : Family) (n : Nat) (bitset : Bitset) :
    Except Fault (Set Int) :=
  (List.range n).foldlM (fun (Union : Set Int) index =>
    if bitset.Has index then do
      let b ← Base.Get index
      pure (Union.orAssign b)
    else pure Union) Set.empty

/-- The loop over `bitset` of `MakeFamilyFromBase`. `SkipLimit` stands for the
value of `SkipFactor * SHRT_MAX` (0 for the default `SkipFactor = 0.0f`, the
only factor `main` uses), `random k` for the value the `k`-th call of
`random(0, SHRT_MAX)` returns, and `calls` counts the calls made so far. -/
def MakeFamilyFromBase.loop (Base : Family) (SkipLimit : Int) (random : Nat → Int) :
    Nat → Nat → Bitset → Family → Except Fault Family
  | 0, _, _, _ => .error .fuel
  | fuel + 1, calls, bitset, Family => do
    let n ← Base.Count
    if bitset.Count ≤ n then
      if random calls > SkipLimit then do
        let Union ← MakeFamilyFromBase.union Base n bitset
        MakeFamilyFromBase.loop Base SkipLimit random fuel (calls + 1) bitset.incr
          (Family.Add Union)
      else
        MakeFamilyFromBase.loop Base SkipLimit random fuel (calls + 1) bitset.incr Family
    else pure Family

/-- The function `MakeFamilyFromBase`. The loop makes at most
`2 ^ |Base| + 1` tests of its condition. -/
def MakeFamilyFromBase (Base : Family) (SkipLimit : Int) (random : Nat → Int) :
    Except Fault Family :=
  MakeFamilyFromBase.loop Base SkipLimit random (2 ^ Base.Elements_.length + 1) 0 ⟨[]⟩
    Set.empty

/-- The loop over `j` of `Sigma`: the union of the members `B` of the family
with `B.Count() < A.Count()` and `IsSubset(B, A)`; `n` is the value of
`Family.Count()`. -/
def Sigma.unionOfSubsets (Family : Family) (n : Nat) (A : Set Int) : Except Fault (Set Int) :=
  (List.range n).foldlM (fun (UnionOfSubsets : Set Int) j => do
    let B ← Family.Get j
    let cb ← B.Count
    let ca ← A.Count
    if cb < ca && IsSubset B A then pure (UnionOfSubsets.orAssign B)
    else pure UnionOfSubsets) Set.empty

/-- The function `Sigma`. -/
def Sigma (Family : Family) : Except Fault UnionClosed.Family := do
  let n ← Family.Count
  (List.range n).foldlM (fun (Ret : UnionClosed.Family) i => do
    let A ← Family.Get i
    let UnionOfSubsets ← Sigma.unionOfSubsets Family n A
    if UnionOfSubsets.ne A then pure (Ret.Add A) else pure Ret) Set.empty

/-- The loop over `index` of `MakeD`: `Union` starts as a copy of `Enforced`
and is intersected with the later members whose bit is set; `n` is the value
of `C.Count()`, and `index + i + 1 < n` is `index < n - (i + 1)`. -/
def MakeD.inter (i : Nat) (C : Family) (n : Nat) (bitset : Bitset) (Enforced : Set Int) :
    Except Fault (Set Int) :=
  (List.range (n - (i + 1))).foldlM (fun (Union : Set Int) index =>
    if bitset.Has index then do
      let c ← C.Get (index + i + 1)
      pure (Union.andAssign c)
    else pure Union) Enforced.copy

/-- The loop over `bitset` of `MakeD`. -/
def MakeD.loop (i : Nat) (C : Family) (Enforced : Set Int) :
    Nat → Bitset → Family → Except Fault Family
  | 0, _, _ => .error .fuel
  | fuel + 1, bitset, D => do
    let n ← C.Count
    if bitset.Count < usub n i then do
      let Union ← MakeD.inter i C n bitset Enforced
      MakeD.loop i C Enforced fuel bitset.incr (D.Add Union)
    else pure D

/-- The function `MakeD`. The loop makes at most `2 ^ |C|` tests of its
condition. -/
def MakeD (i : Nat) (C : Family) : Except Fault Family := do
  let Enforced ← C.Get i
  MakeD.loop i C Enforced (2 ^ C.Elements_.length) ⟨[true]⟩ Set.empty

/-- The function `MakeBeta`. -/
def MakeBeta (C : Family) : Except Fault Family := do
  let n ← C.Count
  (List.range (usub n 1)).foldlM (fun (B : Family) index => do
    let D ← MakeD index C
    pure (B.orAssign D)) Set.empty

/-- The loop over `v` of `MakeAltEta`, on the pair of `H_new` and the working
copy `h`. -/
def MakeAltEta.scan (V : Family) (H_new : Family) (h : Set Int) :
    Except Fault (Family × Set Int) :=
  V.Elements_.foldlM (fun (st : Family × Set Int) v =>
    if !v.IsEmpty && IsSubset v st.2 then do
      let h' ← st.2.subAssign v
      pure (st.1.Add v, h')
    else pure st) (H_new, h)

/-- The function `MakeAltEta` (its output to `std::cout` left out). -/
def MakeAltEta (H V : Family) : Except Fault Family :=
  H.Elements_.foldlM (fun (H_new : Family) h_ => do
    let st ← MakeAltEta.scan V H_new h_.copy
    pure (st.1.Add st.2)) Set.empty

/-- The forward phase of `main`: the loop `while (!C.back().IsEmpty())`, which
appends `MakeBeta(C.back())` to the chain `C`. -/
def Forward : Nat → List Family → Except Fault (List Family)
  | 0, _ => .error .fuel
  | fuel + 1, C =>
    match C.getLast? with
    | none => .error .outOfRange
    | some c =>
      if !c.IsEmpty then do
        let b ← MakeBeta c
        Forward fuel (C ++ [b])
      else pure C

/-- The set `U(A)` in the words of the specification: the union of all members
`B` of `F` with `Count(B) < Count(A)` and `IsSubset(B, A)`, as the set of
integers that `operator!=` compares with `A`. -/
def Sigma.U (F : Family) (A : Set Int) : Finset Int :=
  ((F.Elements_.filter (fun B =>
      decide (B.Elements_.length < A.Elements_.length) && IsSubset B A)).map
    (fun B => B.ElementsLookup_)).foldr (fun X acc => X ∪ acc) ∅

/-- The test of `Sigma` on a member `A`, in the words of the specification:
`U(A) != A`. -/
def Sigma.keep (F : Family) (A : Set Int) : Bool := decide (Sigma.U F A ≠ A.ElementsLookup_)

/-- The value of `Sigma` on a family that satisfies the invariant. -/
def Sigma.result (F : Family) : Family :=
  ⟨F.Elements_.filter (Sigma.keep F),
   ((F.Elements_.filter (Sigma.keep F)).map Key.key).toFinset⟩

/-- The invariant of `Set<Tp>`: the vector holds no two elements with the same
key, and the lookup table holds exactly the keys of the vector. -/
def Set.Inv {α κ : Type} [Key α κ] [DecidableEq κ] (s : Set α) : Prop :=
  (s.Elements_.map Key.key).Nodup ∧ (s.Elements_.map Key.key).toFinset = s.ElementsLookup_

instance {α κ : Type} [Key α κ] [DecidableEq κ] (s : Set α) : Decidable s.Inv := by
  unfold Set.Inv; infer_instance

/-- The sets reachable from the empty set by the mutating methods other than
`Replace`. The operand of an operator is either any other object (`assign`,
`orAssign`, `addAssign`, `subAssign`, `andAssign`) or the receiver itself
(`assignSelf`, `orAssignSelf`, `addAssignSelf`, `subAssignSelf`, and `andAssign`
with the value of the receiver). A step by a fallible method is one that
returns. -/
inductive Set.Reachable {α κ : Type} [Key α κ] [DecidableEq κ] : Set α → Prop where
  | empty : Set.Reachable Set.empty
  | Add (s : Set α) (x : α) : Set.Reachable s → Set.Reachable (s.Add x)
  | TryRemove (s : Set α) (x : α) (b : Bool) (t : Set α) :
      Set.Reachable s → s.TryRemove x = .ok (b, t) → Set.Reachable t
  | Remove (s : Set α) (x : α) (t : Set α) :
      Set.Reachable s → s.Has x = true → s.Remove x = .ok t → Set.Reachable t
  | Clear (s : Set α) : Set.Reachable s → Set.Reachable s.Clear
  | assign (s other : Set α) : Set.Reachable s → Set.Reachable (s.assign other)
  | orAssign (s other : Set α) : Set.Reachable s → Set.Reachable (s.orAssign other)
  | addAssign (s other : Set α) : Set.Reachable s → Set.Reachable (s.addAssign other)
  | subAssign (s other t : Set α) :
      Set.Reachable s → s.subAssign other = .ok t → Set.Reachable t
  | andAssign (s other : Set α) : Set.Reachable s → Set.Reachable (s.andAssign other)
  | assignSelf (s t : Set α) : Set.Reachable s → s.assignSelf = .ok t → Set.Reachable t
  | orAssignSelf (s t : Set α) : Set.Reachable s → s.orAssignSelf = .ok t → Set.Reachable t
  | addAssignSelf (s t : Set α) :
      Set.Reachable s → s.addAssignSelf = .ok t → Set.Reachable t
  | subAssignSelf (s t : Set α) :
      Set.Reachable s → s.subAssignSelf = .ok t → Set.Reachable t

/-- The invariant of a family: that of the family and that of each member. -/
def FamilyInv (F : Family) : Prop := F.Inv ∧ ∀ A ∈ F.Elements_, A.Inv

instance (F : Family) : Decidable (FamilyInv F) := by
  unfold FamilyInv; infer_instance

/-- The integers of the member `C[j]` (no integer when `j` is out of range). -/
def lookupAt (C : Family) (j : Nat) : Finset Int :=
  match C.Elements_[j]? with
  | some c => c.ElementsLookup_
  | none => ∅

/-- The set `C[i] ∩ C[j1] ∩ ... ∩ C[jm]` for the set of indices `S = {j1, ..., jm}`. -/
def interOver (C : Family) (i : Nat) (S : Finset Nat) : Finset Int :=
  (lookupAt C i).filter (fun x => ∀ j ∈ S, x ∈ lookupAt C j)

/-- The set `MakeD(i, C)` computes for the bit pattern of the number `v`: the
integers of `C[i]` that are in `C[index + i + 1]` for every true bit `index`. -/
def interBits (C : Family) (i v : Nat) : Finset Int :=
  (lookupAt C i).filter (fun x =>
    ∀ index < C.Elements_.length - (i + 1), v.testBit index = true →
      x ∈ lookupAt C (index + i + 1))

/-- The union of the members of `Base` at the indices in `S`. -/
def unionOver (Base : Family) (S : Finset Nat) : Finset Int := S.biUnion (lookupAt Base)

/-- The set `MakeFamilyFromBase` computes for the bit pattern of the number `v`:
the union of the members of `Base` at the true bits. -/
def unionBits (Base : Family) (v : Nat) : Finset Int :=
  unionOver Base ((Finset.range Base.Elements_.length).filter (fun index => v.testBit index = true))

/-- The greedy decomposition in the words of the specification, on the sets of
integers: scanning `V` in its iteration order with the working copy `h`, a set
`v` that is non-empty and a subset of the working copy is selected and
subtracted from it. The result is the list of the selected sets and the final
residual. -/
def AltEta.pieces : List (Finset Int) → Finset Int → List (Finset Int) × Finset Int
  | [], h => ([], h)
  | v :: V, h =>
    if v ≠ ∅ ∧ v ⊆ h then (v :: (AltEta.pieces V (h \ v)).1, (AltEta.pieces V (h \ v)).2)
    else AltEta.pieces V h

/-- Two families for `MakeAltEta`: `H = { {1,2,3,4,5}, {3,6} }`. -/
def etaH : Family := Set.ofList [Set.ofList [1, 2, 3, 4, 5], Set.ofList [3, 6]]

/-- The family `V = { {3}, {}, {1,2}, {2,4}, {6,7} }`. -/
def etaV : Family :=
  Set.ofList [Set.ofList [3], Set.ofList [], Set.ofList [1, 2], Set.ofList [2, 4],
    Set.ofList [6, 7]]

/-- One step of the forward phase: `c` is not empty and `b` is `MakeBeta(c)`. -/
def BetaStep (c b : Family) : Prop := c.IsEmpty = false ∧ MakeBeta c = .ok b

/-- The members of the collection `L` that contain `X`. -/
def above (L : Finset (Finset Int)) (X : Finset Int) : Finset (Finset Int) :=
  L.filter (fun A => X ⊆ A)

/-- The set `X` is the intersection of the members of `L` that contain it, and
there are more than `k` of them. -/
def Deep (L : Finset (Finset Int)) (k : Nat) (X : Finset Int) : Prop :=
  k + 1 ≤ (above L X).card ∧ ∀ x, (∀ A ∈ above L X, x ∈ A) → x ∈ X

/-- A family of three overlapping sets, `{ {1,2,3}, {2,3,4}, {3,4,5,1} }`. -/
def overlapFamily : Family :=
  Set.ofList [Set.ofList [1, 2, 3], Set.ofList [2, 3, 4], Set.ofList [3, 4, 5, 1]]

/-- The family `{ {}, {1,2}, {3,4}, {1,2,3,4} }` of the end-to-end scenario. -/
def scenarioFamily : Family :=
  Set.ofList [Set.ofList [], Set.ofList [1, 2], Set.ofList [3, 4], Set.ofList [1, 2, 3, 4]]

/-- The base `{ {1,2}, {3,4} }` of the end-to-end scenario. -/
def scenarioBase : Family := Set.ofList [Set.ofList [1, 2], Set.ofList [3, 4]]

/-- A family with two members of the same size, `{ {1,2}, {2,3}, {2}, {1,2,3} }`. -/
def sameSizeFamily : Family :=
  Set.ofList [Set.ofList [1, 2], Set.ofList [2, 3], Set.ofList [2], Set.ofList [1, 2, 3]]

/-- The set of integers `{4, 7, 9}`, built in this order. -/
def threeInts : Set Int := Set.ofList [4, 7, 9]

/-- The set of integers `{9, 1, 4}`, built in this order. -/
def otherInts : Set Int := Set.ofList [9, 1, 4]

/-- A set reached by two calls of `Add` and an `operator&=`. -/
def reachedInts : Set Int := ((Set.empty.Add 4).Add 7).andAssign otherInts

/-- The set `{1}`, reached by one call of `Add`. -/
def oneInt : Set Int := Set.empty.Add 1

/-- The bit vector `{true, true, false}`, of value 3 with a leading false bit. -/
def paddedBits : Bitset := ⟨[true, true, false]⟩

/-! ## The container -/

section Container

variable {α κ : Type} [Key α κ] [DecidableEq κ]

@[simp] theorem key_int (x : Int) : Key.key x = x := rfl

@[simp] theorem key_set (s : Set α) : Key.key s = s.ElementsLookup_ := rfl

theorem Set.ext_fields {s t : Set α} (h1 : s.Elements_ = t.Elements_)
    (h2 : s.ElementsLookup_ = t.ElementsLookup_) : s = t := by
  cases s; cases t; simp_all

theorem Set.Inv_empty : (Set.empty : Set α).Inv := by
  simp [Set.Inv, Set.empty]

@[simp] theorem Set.empty_lookup : (Set.empty : Set α).ElementsLookup_ = ∅ := rfl

@[simp] theorem Set.empty_elements : (Set.empty : Set α).Elements_ = [] := rfl

@[simp] theorem Set.Add_lookup (s : Set α) (x : α) :
    (s.Add x).ElementsLookup_ = insert (Key.key x) s.ElementsLookup_ := rfl

theorem Set.Add_elements_of_mem {s : Set α} {x : α} (h : Key.key x ∈ s.ElementsLookup_) :
    (s.Add x).Elements_ = s.Elements_ := by
  simp [Set.Add, h]

theorem Set.Add_elements_of_not_mem {s : Set α} {x : α} (h : Key.key x ∉ s.ElementsLookup_) :
    (s.Add x).Elements_ = s.Elements_ ++ [x] := by
  simp [Set.Add, h]

theorem Set.Add_of_mem {s : Set α} {x : α} (h : Key.key x ∈ s.ElementsLookup_) :
    s.Add x = s := by
  apply Set.ext_fields
  · exact Set.Add_elements_of_mem h
  · simp [h]

theorem Set.Inv_Add {s : Set α} (h : s.Inv) (x : α) : (s.Add x).Inv := by
  by_cases hx : Key.key x ∈ s.ElementsLookup_
  · rw [Set.Add_of_mem hx]; exact h
  · obtain ⟨h1, h2⟩ := h
    refine ⟨?_, ?_⟩
    · rw [Set.Add_elements_of_not_mem hx, List.map_append, List.nodup_append]
      refine ⟨h1, by simp, ?_⟩
      intro a ha hb
      simp only [List.map_cons, List.map_nil, List.mem_singleton] at hb
      subst hb
      apply hx
      rw [← h2]
      exact List.mem_toFinset.mpr ha
    · rw [Set.Add_elements_of_not_mem hx, Set.Add_lookup, ← h2]
      ext k
      simp only [List.map_append, List.map_cons, List.map_nil, List.toFinset_append,
        List.toFinset_cons, List.toFinset_nil, Finset.mem_union, Finset.mem_insert,
        List.mem_toFinset, Finset.not_mem_empty, or_false]
      tauto

theorem Set.card_of_Inv {s : Set α} (h : s.Inv) :
    s.ElementsLookup_.card = s.Elements_.length := by
  rw [← h.2, List.toFinset_card_of_nodup h.1, List.length_map]

theorem Set.Count_of_Inv {s : Set α} (h : s.Inv) : s.Count = .ok s.ElementsLookup_.card := by
  simp [Set.Count, Set.card_of_Inv h]

theorem Set.mem_lookup_iff {s : Set α} (h : s.Inv) (k : κ) :
    k ∈ s.ElementsLookup_ ↔ ∃ e ∈ s.Elements_, Key.key e = k := by
  rw [← h.2]; simp

theorem Set.foldl_Add_lookup (l : List α) (s : Set α) :
    (l.foldl Set.Add s).ElementsLookup_ = s.ElementsLookup_ ∪ (l.map Key.key).toFinset := by
  induction l generalizing s with
  | nil => simp
  | cons x l ih =>
    rw [List.foldl_cons, ih]
    ext k
    simp only [Set.Add_lookup, Finset.mem_union, Finset.mem_insert, List.map_cons,
      List.toFinset_cons]
    tauto

theorem Set.Inv_foldl_Add (l : List α) {s : Set α} (h : s.Inv) : (l.foldl Set.Add s).Inv := by
  induction l generalizing s with
  | nil => exact h
  | cons x l ih => exact ih (Set.Inv_Add h x)

theorem Set.foldl_Add_of_fresh (l : List α) (s : Set α) (h1 : (l.map Key.key).Nodup)
    (h2 : ∀ x ∈ l, Key.key x ∉ s.ElementsLookup_) :
    l.foldl Set.Add s = ⟨s.Elements_ ++ l, s.ElementsLookup_ ∪ (l.map Key.key).toFinset⟩ := by
  induction l generalizing s with
  | nil => cases s; simp
  | cons x l ih =>
    rw [List.map_cons, List.nodup_cons] at h1
    have hx : Key.key x ∉ s.ElementsLookup_ := h2 x (List.mem_cons_self _ _)
    rw [List.foldl_cons, ih _ h1.2]
    · apply Set.ext_fields
      · simp [Set.Add_elements_of_not_mem hx]
      · ext k
        simp only [Set.Add_lookup, Finset.mem_union, Finset.mem_insert, List.map_cons,
          List.toFinset_cons]
        tauto
    · intro y hy
      rw [Set.Add_lookup, Finset.mem_insert, not_or]
      refine ⟨?_, h2 y (List.mem_cons_of_mem _ hy)⟩
      intro e
      exact h1.1 (e ▸ List.mem_map_of_mem _ hy)

theorem Set.copy_of_Inv {s : Set α} (h : s.Inv) : s.copy = s := by
  unfold Set.copy Set.ofList
  rw [Set.foldl_Add_of_fresh _ _ h.1 (by simp)]
  apply Set.ext_fields
  · simp
  · simp [h.2]

theorem Set.orAssign_lookup (s o : Set α) :
    (s.orAssign o).ElementsLookup_ = s.ElementsLookup_ ∪ (o.Elements_.map Key.key).toFinset :=
  Set.foldl_Add_lookup _ _

theorem Set.orAssign_lookup_of_Inv (s : Set α) {o : Set α} (h : o.Inv) :
    (s.orAssign o).ElementsLookup_ = s.ElementsLookup_ ∪ o.ElementsLookup_ := by
  rw [Set.orAssign_lookup, h.2]

theorem Set.Inv_orAssign {s : Set α} (h : s.Inv) (o : Set α) : (s.orAssign o).Inv :=
  Set.Inv_foldl_Add _ h

theorem Set.andAssign_fold (o : Set α) (l : List α) (c : List α × Finset κ) :
    l.foldl (fun (c : List α × Finset κ) element =>
      if o.Has element then (c.1 ++ [element], insert (Key.key element) c.2) else c) c =
      (c.1 ++ l.filter (fun element => o.Has element),
       c.2 ∪ ((l.filter (fun element => o.Has element)).map Key.key).toFinset) := by
  induction l generalizing c with
  | nil => simp
  | cons x l ih =>
    rw [List.foldl_cons, ih]
    by_cases hx : o.Has x = true
    · simp only [hx, if_true, List.filter_cons_of_pos, List.append_assoc, List.singleton_append,
        List.map_cons, List.toFinset_cons, Prod.mk.injEq, true_and]
      ext k
      simp only [Finset.mem_union, Finset.mem_insert]
      tauto
    · simp [hx]

/-- The loop of `operator&=` leaves the elements of the receiver that `other`
has, in their order, and their keys. -/
theorem Set.andAssign_eq (s o : Set α) :
    s.andAssign o = ⟨s.Elements_.filter (fun element => o.Has element),
      ((s.Elements_.filter (fun element => o.Has element)).map Key.key).toFinset⟩ := by
  unfold Set.andAssign
  rw [Set.andAssign_fold]
  simp

theorem Set.andAssign_lookup {s : Set α} (h : s.Inv) (o : Set α) :
    (s.andAssign o).ElementsLookup_ = s.ElementsLookup_ ∩ o.ElementsLookup_ := by
  ext k
  rw [Set.andAssign_eq]
  simp only [Set.Has, List.mem_toFinset, List.mem_map, List.mem_filter,
    decide_eq_true_eq, Finset.mem_inter, Set.mem_lookup_iff h]
  constructor
  · rintro ⟨e, ⟨he, hk⟩, rfl⟩
    exact ⟨⟨e, he, rfl⟩, hk⟩
  · rintro ⟨⟨e, he, rfl⟩, hk⟩
    exact ⟨e, ⟨he, hk⟩, rfl⟩

theorem Set.Inv_andAssign {s : Set α} (h : s.Inv) (o : Set α) : (s.andAssign o).Inv := by
  rw [Set.andAssign_eq]
  refine ⟨?_, rfl⟩
  exact (List.filter_sublist _).map _ |>.nodup h.1

theorem IsSubset_iff {l : Set α} (h : l.Inv) (r : Set α) :
    IsSubset l r = true ↔ l.ElementsLookup_ ⊆ r.ElementsLookup_ := by
  simp only [IsSubset, Set.Has, List.all_eq_true, decide_eq_true_eq]
  constructor
  · intro hs k hk
    obtain ⟨e, he, rfl⟩ := (Set.mem_lookup_iff h k).mp hk
    exact hs e he
  · intro hs e he
    exact hs ((Set.mem_lookup_iff h _).mpr ⟨e, he, rfl⟩)

theorem Set.Get_eq {s : Set α} {i : Nat} (h : i < s.Elements_.length) :
    s.Get i = .ok s.Elements_[i] := by
  simp [Set.Get, List.getElem?_eq_getElem h]

@[simp] theorem ok_bind {β γ : Type} (a : β) (f : β → Except Fault γ) :
    (Except.ok a >>= f) = f a := rfl

@[simp] theorem error_bind {β γ : Type} (e : Fault) (f : β → Except Fault γ) :
    ((Except.error e : Except Fault β) >>= f) = Except.error e := rfl

@[simp] theorem pure_eq_ok {β : Type} (a : β) : (pure a : Except Fault β) = Except.ok a := rfl

theorem foldlM_range_inv {σ : Type} (body : σ → Nat → Except Fault σ) (P : Nat → σ → Prop)
    (m : Nat) (s : σ) (h0 : P 0 s)
    (hstep : ∀ k st, k < m → P k st → ∃ st', body st k = .ok st' ∧ P (k + 1) st') :
    ∃ st', (List.range m).foldlM body s = .ok st' ∧ P m st' := by
  induction m with
  | zero => exact ⟨s, rfl, h0⟩
  | succ m ih =>
    obtain ⟨st, h1, h2⟩ := ih (fun k st hk hp => hstep k st (Nat.lt_succ_of_lt hk) hp)
    obtain ⟨st', h3, h4⟩ := hstep m st (Nat.lt_succ_self m) h2
    refine ⟨st', ?_, h4⟩
    rw [List.range_succ, List.foldlM_append, h1]
    simp only [List.foldlM_cons, List.foldlM_nil]
    show (body st m >>= pure) = _
    rw [h3]; rfl

end Container

/-! ## Sigma -/

theorem mem_foldr_union (L : List (Finset Int)) (x : Int) :
    x ∈ L.foldr (fun X acc => X ∪ acc) ∅ ↔ ∃ X ∈ L, x ∈ X := by
  induction L with
  | nil => simp
  | cons X L ih => simp [ih]

theorem Sigma.mem_U (F : Family) (A : Set Int) (x : Int) :
    x ∈ Sigma.U F A ↔ ∃ B ∈ F.Elements_, B.Elements_.length < A.Elements_.length ∧
      IsSubset B A = true ∧ x ∈ B.ElementsLookup_ := by
  unfold Sigma.U
  rw [mem_foldr_union]
  simp only [List.mem_map, List.mem_filter, Bool.and_eq_true, decide_eq_true_eq]
  constructor
  · rintro ⟨X, ⟨B, ⟨hB, h1, h2⟩, rfl⟩, hx⟩
    exact ⟨B, hB, h1, h2, hx⟩
  · rintro ⟨B, hB, h1, h2, hx⟩
    exact ⟨_, ⟨B, ⟨hB, h1, h2⟩, rfl⟩, hx⟩

theorem getElem?_mem_of_some {β : Type} {l : List β} {j : Nat} {b : β} (h : l[j]? = some b) :
    b ∈ l := by
  rw [List.getElem?_eq_some] at h
  obtain ⟨hj, rfl⟩ := h
  exact List.getElem_mem _

theorem Sigma.unionOfSubsets_spec {F : Family} (hF : FamilyInv F) {A : Set Int} (hA : A.Inv) :
    ∃ U, Sigma.unionOfSubsets F F.Elements_.length A = .ok U ∧ U.Inv ∧
      U.ElementsLookup_ = Sigma.U F A := by
  have key := foldlM_range_inv
    (fun (UnionOfSubsets : Set Int) j => do
      let B ← F.Get j
      let cb ← B.Count
      let ca ← A.Count
      if cb < ca && IsSubset B A then pure (UnionOfSubsets.orAssign B)
      else pure UnionOfSubsets)
    (fun k (U : Set Int) => U.Inv ∧ ∀ x, x ∈ U.ElementsLookup_ ↔
      ∃ j B, j < k ∧ F.Elements_[j]? = some B ∧ B.Elements_.length < A.Elements_.length ∧
        IsSubset B A = true ∧ x ∈ B.ElementsLookup_)
    F.Elements_.length Set.empty ⟨Set.Inv_empty, by simp⟩ ?_
  · obtain ⟨U, h1, h2, h3⟩ := key
    refine ⟨U, h1, h2, ?_⟩
    ext x
    rw [h3, Sigma.mem_U]
    constructor
    · rintro ⟨j, B, -, hB, r⟩
      exact ⟨B, getElem?_mem_of_some hB, r⟩
    · rintro ⟨B, hB, r⟩
      obtain ⟨j, hj, e⟩ := List.getElem_of_mem hB
      exact ⟨j, B, hj, by rw [List.getElem?_eq_getElem hj, e], r⟩
  · rintro k U hk ⟨hU, hx⟩
    have hBinv : F.Elements_[k].Inv := hF.2 _ (List.getElem_mem _)
    dsimp only
    rw [Set.Get_eq hk]
    simp only [Set.Count_of_Inv hBinv, Set.Count_of_Inv hA, Set.card_of_Inv hBinv,
      Set.card_of_Inv hA, ok_bind, pure_eq_ok]
    split
    · rename_i hc
      rw [Bool.and_eq_true, decide_eq_true_eq] at hc
      refine ⟨_, rfl, Set.Inv_orAssign hU _, ?_⟩
      intro x
      rw [Set.orAssign_lookup_of_Inv _ hBinv, Finset.mem_union, hx]
      constructor
      · rintro (⟨j, B, hj, r⟩ | hxB)
        · exact ⟨j, B, Nat.lt_succ_of_lt hj, r⟩
        · exact ⟨k, _, Nat.lt_succ_self k, by rw [List.getElem?_eq_getElem hk],
            hc.1, hc.2, hxB⟩
      · rintro ⟨j, B, hj, hB, r⟩
        rcases Nat.lt_succ_iff_lt_or_eq.mp hj with hj | rfl
        · exact Or.inl ⟨j, B, hj, hB, r⟩
        · rw [List.getElem?_eq_getElem hk, Option.some.injEq] at hB
          subst hB
          exact Or.inr r.2.2
    · rename_i hc
      refine ⟨_, rfl, hU, ?_⟩
      intro x
      rw [hx]
      constructor
      · rintro ⟨j, B, hj, r⟩
        exact ⟨j, B, Nat.lt_succ_of_lt hj, r⟩
      · rintro ⟨j, B, hj, hB, r⟩
        rcases Nat.lt_succ_iff_lt_or_eq.mp hj with hj | rfl
        · exact ⟨j, B, hj, hB, r⟩
        · rw [List.getElem?_eq_getElem hk, Option.some.injEq] at hB
          subst hB
          exfalso
          apply hc
          rw [Bool.and_eq_true, decide_eq_true_eq]
          exact ⟨r.1, r.2.1⟩

theorem take_succ_get {β : Type} (l : List β) (k : Nat) (hk : k < l.length) :
    l.take (k + 1) = l.take k ++ [l[k]] := by
  rw [List.take_succ, List.getElem?_eq_getElem hk]; rfl

theorem key_not_mem_take {β γ : Type} (f : β → γ) (l : List β) (h : (l.map f).Nodup)
    (k : Nat) (hk : k < l.length) : ∀ e ∈ l.take k, f e ≠ f l[k] := by
  intro e he heq
  have h2 : ((l.take (k + 1)).map f).Nodup := ((List.take_sublist _ _).map f).nodup h
  rw [take_succ_get l k hk, List.map_append, List.nodup_append] at h2
  exact h2.2.2 (List.mem_map_of_mem f he) (by simp [heq])

theorem Sigma_eq_result {F : Family} (hF : FamilyInv F) : Sigma F = .ok (Sigma.result F) := by
  have key := foldlM_range_inv
    (fun (Ret : Family) i => do
      let A ← F.Get i
      let UnionOfSubsets ← Sigma.unionOfSubsets F F.Elements_.length A
      if UnionOfSubsets.ne A then pure (Ret.Add A) else pure Ret)
    (fun k (Ret : Family) =>
      Ret.Elements_ = (F.Elements_.take k).filter (Sigma.keep F) ∧
      Ret.ElementsLookup_ = (((F.Elements_.take k).filter (Sigma.keep F)).map Key.key).toFinset)
    F.Elements_.length Set.empty ⟨by simp, by simp⟩ ?_
  · obtain ⟨R, h1, h2, h3⟩ := key
    unfold Sigma
    rw [Set.Count_of_Inv hF.1, Set.card_of_Inv hF.1, ok_bind, h1]
    congr 1
    rw [List.take_length] at h2 h3
    exact Set.ext_fields h2 h3
  · rintro k Ret hk ⟨hE, hL⟩
    have hAinv : F.Elements_[k].Inv := hF.2 _ (List.getElem_mem _)
    obtain ⟨U, hU1, -, hU3⟩ := Sigma.unionOfSubsets_spec hF hAinv
    dsimp only
    rw [Set.Get_eq hk, ok_bind, hU1, ok_bind]
    have hne : U.ne F.Elements_[k] = Sigma.keep F F.Elements_[k] := by
      simp [Set.ne, Sigma.keep, hU3]
    rw [hne, take_succ_get _ k hk, List.filter_append]
    cases hkeep : Sigma.keep F F.Elements_[k]
    · refine ⟨Ret, rfl, ?_, ?_⟩
      · simp [List.filter_cons, hkeep, hE]
      · simp [List.filter_cons, hkeep, hL]
    · have hfresh : Key.key F.Elements_[k] ∉ Ret.ElementsLookup_ := by
        rw [hL, List.mem_toFinset, List.mem_map]
        rintro ⟨e, he, heq⟩
        exact key_not_mem_take Key.key _ hF.1.1 k hk e (List.mem_filter.mp he).1 heq
      refine ⟨Ret.Add _, rfl, ?_, ?_⟩
      · rw [Set.Add_elements_of_not_mem hfresh, hE]
        simp [List.filter_cons, hkeep]
      · rw [Set.Add_lookup, hL]
        ext X
        simp only [List.filter_cons, hkeep, List.filter_nil, if_true, List.map_append,
          List.map_cons, List.map_nil, List.toFinset_append, List.toFinset_cons,
          List.toFinset_nil, Finset.mem_insert, Finset.mem_union, Finset.not_mem_empty,
          or_false]
        tauto

theorem Sigma.result_Inv {F : Family} (hF : FamilyInv F) : FamilyInv (Sigma.result F) := by
  refine ⟨⟨?_, rfl⟩, ?_⟩
  · exact ((List.filter_sublist _).map _).nodup hF.1.1
  · intro A hA
    exact hF.2 A (List.mem_filter.mp hA).1

theorem Sigma.U_subset {F : Family} {A : Set Int} (hF : FamilyInv F) :
    Sigma.U F A ⊆ A.ElementsLookup_ := by
  intro x hx
  rw [Sigma.mem_U] at hx
  obtain ⟨B, hB, -, h2, h3⟩ := hx
  exact (IsSubset_iff (hF.2 B hB) A).mp h2 h3

/-- On a family with the invariant, `U(A) = A` says that `A` is the union of a
collection of members with strictly fewer elements. -/
theorem Sigma.U_eq_iff {F : Family} (hF : FamilyInv F) {A : Set Int} (hA : A.Inv) :
    Sigma.U F A = A.ElementsLookup_ ↔
      ∃ G : Finset (Finset Int), G ⊆ F.ElementsLookup_ ∧
        (∀ B ∈ G, B.card < A.ElementsLookup_.card) ∧ G.biUnion id = A.ElementsLookup_ := by
  constructor
  · intro h
    refine ⟨F.ElementsLookup_.filter
      (fun B => B.card < A.ElementsLookup_.card ∧ B ⊆ A.ElementsLookup_),
      Finset.filter_subset _ _, ?_, ?_⟩
    · intro B hB
      exact (Finset.mem_filter.mp hB).2.1
    · rw [← h]
      ext x
      simp only [Finset.mem_biUnion, Finset.mem_filter, id, Sigma.mem_U]
      constructor
      · rintro ⟨B, ⟨hB, hc, hs⟩, hx⟩
        obtain ⟨B', hB', rfl⟩ := (Set.mem_lookup_iff hF.1 B).mp hB
        have hi := hF.2 B' hB'
        refine ⟨B', hB', ?_, (IsSubset_iff hi A).mpr (h ▸ hs), hx⟩
        rw [← Set.card_of_Inv hi, ← Set.card_of_Inv hA]
        exact h ▸ hc
      · rintro ⟨B, hB, hc, hs, hx⟩
        have hi := hF.2 B hB
        refine ⟨B.ElementsLookup_, ⟨(Set.mem_lookup_iff hF.1 _).mpr ⟨B, hB, rfl⟩, ?_, ?_⟩, hx⟩
        · rw [h, Set.card_of_Inv hi, Set.card_of_Inv hA]; exact hc
        · rw [h]; exact (IsSubset_iff hi A).mp hs
  · rintro ⟨G, hG, hc, hu⟩
    apply Finset.Subset.antisymm (Sigma.U_subset hF)
    intro x hx
    rw [← hu, Finset.mem_biUnion] at hx
    obtain ⟨B, hB, hxB⟩ := hx
    obtain ⟨B', hB', rfl⟩ := (Set.mem_lookup_iff hF.1 B).mp (hG hB)
    have hi := hF.2 B' hB'
    rw [Sigma.mem_U]
    refine ⟨B', hB', ?_, (IsSubset_iff hi A).mpr ?_, hxB⟩
    · rw [← Set.card_of_Inv hi, ← Set.card_of_Inv hA]
      exact hc _ hB
    · rw [← hu]
      exact Finset.subset_biUnion_of_mem id hB

theorem Sigma.U_congr (F : Family) {A A' : Set Int} (hA : A.Inv) (hA' : A'.Inv)
    (h : A.ElementsLookup_ = A'.ElementsLookup_) : Sigma.U F A = Sigma.U F A' := by
  ext x
  simp only [Sigma.mem_U]
  have hl : A.Elements_.length = A'.Elements_.length := by
    rw [← Set.card_of_Inv hA, ← Set.card_of_Inv hA', h]
  have hs : ∀ B : Set Int, IsSubset B A = IsSubset B A' := by
    intro B; simp [IsSubset, Set.Has, h]
  simp only [hl, hs]

theorem Sigma.result_Has {F : Family} (hF : FamilyInv F) (A : Set Int) :
    (Sigma.result F).Has A = true ↔ F.Has A = true ∧
      ¬ ∃ G : Finset (Finset Int), G ⊆ F.ElementsLookup_ ∧
        (∀ B ∈ G, B.card < A.ElementsLookup_.card) ∧ G.biUnion id = A.ElementsLookup_ := by
  simp only [Set.Has, Sigma.result, decide_eq_true_eq, List.mem_toFinset, List.mem_map,
    List.mem_filter, key_set]
  constructor
  · rintro ⟨A', ⟨hA', hk⟩, he⟩
    refine ⟨(Set.mem_lookup_iff hF.1 _).mpr ⟨A', hA', he⟩, ?_⟩
    rw [← he, ← Sigma.U_eq_iff hF (hF.2 A' hA')]
    simpa [Sigma.keep] using hk
  · rintro ⟨hA, hG⟩
    obtain ⟨A', hA', he⟩ := (Set.mem_lookup_iff hF.1 _).mp hA
    refine ⟨A', ⟨hA', ?_⟩, he⟩
    rw [key_set] at he
    rw [← he, ← Sigma.U_eq_iff hF (hF.2 A' hA')] at hG
    simpa [Sigma.keep] using hG

/-- C1. On every family `F` (with the container invariant), `Sigma` returns a
family `R`, and a set `A` is a member of `R` if and only if it is a member of
`F` and is not the union of any collection `G` (the empty one included) of
members of `F` that each have strictly fewer elements than `A`; in particular
no set outside `F` is in `R`. -/
theorem Sigma_irredundant (F : Family) (hF : FamilyInv F) :
    ∃ R, Sigma F = .ok R ∧ FamilyInv R ∧ ∀ A : Set Int,
      (R.Has A = true ↔ F.Has A = true ∧
        ¬ ∃ G : Finset (Finset Int), G ⊆ F.ElementsLookup_ ∧
          (∀ B ∈ G, B.card < A.ElementsLookup_.card) ∧ G.biUnion id = A.ElementsLookup_) :=
  ⟨Sigma.result F, Sigma_eq_result hF, Sigma.result_Inv hF, Sigma.result_Has hF⟩

theorem Sigma_irredundant_witness :
    FamilyInv scenarioFamily ∧
    ∃ R, Sigma scenarioFamily = .ok R ∧ FamilyInv R ∧ ∀ A : Set Int,
      (R.Has A = true ↔ scenarioFamily.Has A = true ∧
        ¬ ∃ G : Finset (Finset Int), G ⊆ scenarioFamily.ElementsLookup_ ∧
          (∀ B ∈ G, B.card < A.ElementsLookup_.card) ∧ G.biUnion id = A.ElementsLookup_) :=
  ⟨by decide, Sigma_irredundant scenarioFamily (by decide)⟩

/-- C2. On every family `F` (with the container invariant), the iteration
sequence of `Sigma(F)` is the subsequence of the iteration sequence of `F` made
of the sets `A` with `U(A) != A`, in the order they have in `F`. -/
theorem Sigma_elements (F : Family) (hF : FamilyInv F) :
    ∃ R, Sigma F = .ok R ∧
      R.Elements_ = F.Elements_.filter (fun A => decide (Sigma.U F A ≠ A.ElementsLookup_)) :=
  ⟨Sigma.result F, Sigma_eq_result hF, rfl⟩

theorem Sigma_elements_witness :
    FamilyInv sameSizeFamily ∧
    ∃ R, Sigma sameSizeFamily = .ok R ∧
      R.Elements_ =
        sameSizeFamily.Elements_.filter
          (fun A => decide (Sigma.U sameSizeFamily A ≠ A.ElementsLookup_)) :=
  ⟨by decide, Sigma_elements sameSizeFamily (by decide)⟩

theorem Sigma.keep_result {F : Family} (hF : FamilyInv F) :
    ∀ A ∈ (Sigma.result F).Elements_, Sigma.keep (Sigma.result F) A = true := by
  intro A hA
  have hA' := List.mem_filter.mp hA
  have hk : Sigma.U F A ≠ A.ElementsLookup_ := by simpa [Sigma.keep] using hA'.2
  simp only [Sigma.keep, decide_eq_true_eq]
  intro h
  apply hk
  apply Finset.Subset.antisymm (Sigma.U_subset hF)
  rw [← h]
  intro x hx
  rw [Sigma.mem_U] at hx ⊢
  obtain ⟨B, hB, r⟩ := hx
  exact ⟨B, (List.mem_filter.mp hB).1, r⟩

/-- C3. Re-running `Sigma` on its own output returns the same output, members
and iteration order alike, for every family `F` (with the container
invariant): the hypothesis that the members have pairwise distinct sizes is
not needed. -/
theorem Sigma_idempotent (F : Family) (hF : FamilyInv F) :
    ∃ R, Sigma F = .ok R ∧ Sigma R = .ok R := by
  refine ⟨Sigma.result F, Sigma_eq_result hF, ?_⟩
  rw [Sigma_eq_result (Sigma.result_Inv hF)]
  congr 1
  have h : (Sigma.result F).Elements_.filter (Sigma.keep (Sigma.result F)) =
      (Sigma.result F).Elements_ := List.filter_eq_self.mpr (Sigma.keep_result hF)
  apply Set.ext_fields
  · exact h
  · show ((List.filter _ _).map Key.key).toFinset = _
    rw [h]; rfl

theorem Sigma_idempotent_witness :
    FamilyInv sameSizeFamily ∧ ∃ R, Sigma sameSizeFamily = .ok R ∧ Sigma R = .ok R :=
  ⟨by decide, Sigma_idempotent sameSizeFamily (by decide)⟩

/-! ## Bitset -/

theorem Bitset.incr_nil : Bitset.incr ⟨[]⟩ = ⟨[true]⟩ := rfl

theorem Bitset.incr_false (l : List Bool) : Bitset.incr ⟨false :: l⟩ = ⟨true :: l⟩ := rfl

theorem Bitset.incr_true (l : List Bool) :
    Bitset.incr ⟨true :: l⟩ = ⟨false :: (Bitset.incr ⟨l⟩).Bits_⟩ := by
  simp only [Bitset.incr, Bitset.ripple]
  split <;> simp

/-- The operator `++` on the binary digits of `v` gives the binary digits of
`v + 1`. -/
theorem Bitset.incr_bits (v : Nat) : Bitset.incr ⟨Nat.bits v⟩ = ⟨Nat.bits (v + 1)⟩ := by
  induction v using Nat.binaryRec' with
  | z => simp [Bitset.incr_nil]
  | f b n h ih =>
    rw [Nat.bits_append_bit n b h]
    cases b
    · have e : Nat.bit false n + 1 = Nat.bit true n := by simp [Nat.bit_val]
      rw [Bitset.incr_false, e, Nat.bits_append_bit n true (fun _ => rfl)]
    · have e : Nat.bit true n + 1 = Nat.bit false (n + 1) := by simp [Nat.bit_val]; omega
      rw [Bitset.incr_true, ih, e, Nat.bits_append_bit (n + 1) false (by simp)]

theorem Bitset.Has_bits (v index : Nat) : Bitset.Has ⟨Nat.bits v⟩ index = v.testBit index := by
  rw [Nat.testBit_eq_inth, ← List.getD_default_eq_getI]
  rfl

theorem Bitset.Count_bits (v : Nat) : Bitset.Count ⟨Nat.bits v⟩ = Nat.size v :=
  Nat.size_eq_bits_len v

theorem testBit_false_of_lt {v k index : Nat} (hv : v < 2 ^ k) (h : k ≤ index) :
    v.testBit index = false :=
  Nat.testBit_lt_two_pow (lt_of_lt_of_le hv (Nat.pow_le_pow_right (by decide) h))

/-- Every set of positions below `k` is the set of the true bits of a number
below `2 ^ k`. -/
theorem exists_testBit (k : Nat) (p : Nat → Bool) :
    ∃ v, v < 2 ^ k ∧ ∀ index, v.testBit index = (decide (index < k) && p index) := by
  induction k generalizing p with
  | zero => exact ⟨0, by simp, by simp⟩
  | succ k ih =>
    obtain ⟨w, hw, ht⟩ := ih (fun j => p (j + 1))
    refine ⟨Nat.bit (p 0) w, ?_, ?_⟩
    · rw [Nat.bit_val, pow_succ]
      cases p 0 <;> simp <;> omega
    · intro index
      cases index with
      | zero => simp [Nat.testBit_bit_zero]
      | succ j => rw [Nat.testBit_bit_succ, ht]; simp

/-! ## MakeD and MakeBeta -/

theorem lookupAt_eq {C : Family} {j : Nat} (h : j < C.Elements_.length) :
    lookupAt C j = C.Elements_[j].ElementsLookup_ := by
  simp [lookupAt, List.getElem?_eq_getElem h]

theorem usub_of_le {a b : Nat} (h : b ≤ a) : usub a b = a - b := by
  simp [usub, h]

theorem Set.mem_foldl_Add {α κ : Type} [Key α κ] [DecidableEq κ] (l : List α) (s : Set α)
    (e : α) (h : e ∈ (l.foldl Set.Add s).Elements_) : e ∈ s.Elements_ ∨ e ∈ l := by
  induction l generalizing s with
  | nil => exact Or.inl h
  | cons x l ih =>
    rcases ih (s.Add x) h with h1 | h1
    · by_cases hx : Key.key x ∈ s.ElementsLookup_
      · rw [Set.Add_elements_of_mem hx] at h1; exact Or.inl h1
      · rw [Set.Add_elements_of_not_mem hx, List.mem_append, List.mem_singleton] at h1
        rcases h1 with h1 | rfl
        · exact Or.inl h1
        · exact Or.inr (List.mem_cons_self _ _)
    · exact Or.inr (List.mem_cons_of_mem _ h1)

theorem FamilyInv_empty : FamilyInv Set.empty :=
  ⟨Set.Inv_empty, by simp⟩

theorem FamilyInv_Add {D : Family} (hD : FamilyInv D) {U : Set Int} (hU : U.Inv) :
    FamilyInv (D.Add U) := by
  refine ⟨Set.Inv_Add hD.1 U, ?_⟩
  intro A hA
  rcases Set.mem_foldl_Add [U] D A hA with h | h
  · exact hD.2 A h
  · rw [List.mem_singleton] at h; exact h ▸ hU

theorem FamilyInv_orAssign {B D : Family} (hB : FamilyInv B) (hD : FamilyInv D) :
    FamilyInv (B.orAssign D) := by
  refine ⟨Set.Inv_orAssign hB.1 D, ?_⟩
  intro A hA
  rcases Set.mem_foldl_Add _ B A hA with h | h
  · exact hB.2 A h
  · exact hD.2 A h

theorem MakeD.inter_spec {C : Family} (hC : FamilyInv C) {i : Nat}
    (hi : i < C.Elements_.length) (v : Nat) :
    ∃ U, MakeD.inter i C C.Elements_.length ⟨Nat.bits v⟩ C.Elements_[i] = .ok U ∧ U.Inv ∧
      U.ElementsLookup_ = interBits C i v := by
  have hE : C.Elements_[i].Inv := hC.2 _ (List.getElem_mem _)
  have key := foldlM_range_inv
    (fun (Union : Set Int) index =>
      if Bitset.Has ⟨Nat.bits v⟩ index then do
        let c ← C.Get (index + i + 1)
        pure (Union.andAssign c)
      else pure Union)
    (fun k (U : Set Int) => U.Inv ∧ ∀ x, x ∈ U.ElementsLookup_ ↔
      x ∈ lookupAt C i ∧ ∀ index < k, v.testBit index = true → x ∈ lookupAt C (index + i + 1))
    (C.Elements_.length - (i + 1)) C.Elements_[i].copy ?_ ?_
  · obtain ⟨U, h1, h2, h3⟩ := key
    refine ⟨U, h1, h2, ?_⟩
    ext x
    rw [h3, interBits, Finset.mem_filter]
  · rw [Set.copy_of_Inv hE, lookupAt_eq hi]
    exact ⟨hE, by simp⟩
  · rintro k U hk ⟨hU, hx⟩
    have hj : k + i + 1 < C.Elements_.length := by omega
    dsimp only
    rw [Bitset.Has_bits]
    cases hb : v.testBit k
    · refine ⟨U, rfl, hU, ?_⟩
      intro x
      rw [hx]
      constructor
      · rintro ⟨h1, h2⟩
        refine ⟨h1, fun index hlt ht => ?_⟩
        rcases Nat.lt_succ_iff_lt_or_eq.mp hlt with h | rfl
        · exact h2 index h ht
        · rw [hb] at ht; cases ht
      · rintro ⟨h1, h2⟩
        exact ⟨h1, fun index hlt ht => h2 index (Nat.lt_succ_of_lt hlt) ht⟩
    · rw [if_pos rfl, Set.Get_eq hj, ok_bind]
      refine ⟨_, rfl, Set.Inv_andAssign hU _, ?_⟩
      intro x
      rw [Set.andAssign_lookup hU, Finset.mem_inter, hx, ← lookupAt_eq hj]
      constructor
      · rintro ⟨⟨h1, h2⟩, h3⟩
        refine ⟨h1, fun index hlt ht => ?_⟩
        rcases Nat.lt_succ_iff_lt_or_eq.mp hlt with h | rfl
        · exact h2 index h ht
        · exact h3
      · rintro ⟨h1, h2⟩
        exact ⟨⟨h1, fun index hlt ht => h2 index (Nat.lt_succ_of_lt hlt) ht⟩,
          h2 k (Nat.lt_succ_self k) hb⟩

theorem MakeD.bitset_loop_spec {C : Family} (hC : FamilyInv C) {i : Nat}
    (hi : i < C.Elements_.length) :
    ∀ (fuel v : Nat) (D : Family), 1 ≤ v → v ≤ 2 ^ (C.Elements_.length - (i + 1)) →
      2 ^ (C.Elements_.length - (i + 1)) - v < fuel → FamilyInv D →
      (∀ X, X ∈ D.ElementsLookup_ ↔ ∃ w, 1 ≤ w ∧ w < v ∧ X = interBits C i w) →
      ∃ D', MakeD.loop i C C.Elements_[i] fuel ⟨Nat.bits v⟩ D = .ok D' ∧ FamilyInv D' ∧
        ∀ X, X ∈ D'.ElementsLookup_ ↔
          ∃ w, 1 ≤ w ∧ w < 2 ^ (C.Elements_.length - (i + 1)) ∧ X = interBits C i w := by
  intro fuel
  induction fuel with
  | zero => intro v D _ _ h; omega
  | succ fuel ih =>
    intro v D hv1 hv2 hf hD hL
    rw [MakeD.loop, Set.Count_of_Inv hC.1, Set.card_of_Inv hC.1, ok_bind, Bitset.Count_bits,
      usub_of_le (Nat.le_of_lt hi)]
    have hcond : Nat.size v < C.Elements_.length - i ↔
        v < 2 ^ (C.Elements_.length - (i + 1)) := by
      rw [← Nat.size_le]; omega
    by_cases hlt : v < 2 ^ (C.Elements_.length - (i + 1))
    · rw [if_pos (hcond.mpr hlt)]
      obtain ⟨U, hU1, hU2, hU3⟩ := MakeD.inter_spec hC hi v
      rw [hU1, ok_bind, Bitset.incr_bits]
      apply ih (v + 1) (D.Add U) (by omega) (by omega) (by omega) (FamilyInv_Add hD hU2)
      intro X
      rw [Set.Add_lookup, Finset.mem_insert, hL, key_set, hU3]
      constructor
      · rintro (rfl | ⟨w, h1, h2, h3⟩)
        · exact ⟨v, hv1, Nat.lt_succ_self v, rfl⟩
        · exact ⟨w, h1, Nat.lt_succ_of_lt h2, h3⟩
      · rintro ⟨w, h1, h2, h3⟩
        rcases Nat.lt_succ_iff_lt_or_eq.mp h2 with h | rfl
        · exact Or.inr ⟨w, h1, h, h3⟩
        · exact Or.inl h3
    · rw [if_neg (fun h => hlt (hcond.mp h))]
      have hv : v = 2 ^ (C.Elements_.length - (i + 1)) := by omega
      exact ⟨D, rfl, hD, by rw [← hv]; exact hL⟩

theorem MakeD_spec {C : Family} (hC : FamilyInv C) {i : Nat} (hi : i < C.Elements_.length) :
    ∃ D, MakeD i C = .ok D ∧ FamilyInv D ∧
      ∀ X, X ∈ D.ElementsLookup_ ↔
        ∃ w, 1 ≤ w ∧ w < 2 ^ (C.Elements_.length - (i + 1)) ∧ X = interBits C i w := by
  unfold MakeD
  rw [Set.Get_eq hi, ok_bind, ← Nat.one_bits]
  apply MakeD.bitset_loop_spec hC hi _ 1 Set.empty (le_refl 1) Nat.one_le_two_pow ?_ FamilyInv_empty
  · intro X
    simp only [Set.empty_lookup, Finset.not_mem_empty, false_iff]
    rintro ⟨w, h1, h2, -⟩
    omega
  · have h1 : 2 ^ (C.Elements_.length - (i + 1)) ≤ 2 ^ C.Elements_.length :=
      Nat.pow_le_pow_right (by decide) (Nat.sub_le _ _)
    have h2 : 1 ≤ 2 ^ (C.Elements_.length - (i + 1)) := Nat.one_le_two_pow
    omega

/-- The bit patterns `1 .. 2 ^ (|C| - i - 1) - 1` that `MakeD(i, C)` runs through
stand for the non-empty sets of indices in `i + 1 .. |C| - 1`. -/
theorem interBits_iff_interOver (C : Family) (i : Nat) (X : Finset Int) :
    (∃ w, 1 ≤ w ∧ w < 2 ^ (C.Elements_.length - (i + 1)) ∧ X = interBits C i w) ↔
      ∃ S : Finset Nat, S.Nonempty ∧ (∀ j ∈ S, i < j ∧ j < C.Elements_.length) ∧
        X = interOver C i S := by
  constructor
  · rintro ⟨w, h1, h2, rfl⟩
    refine ⟨((Finset.range (C.Elements_.length - (i + 1))).filter
      (fun index => w.testBit index = true)).image (fun index => index + i + 1), ?_, ?_, ?_⟩
    · obtain ⟨index, ht⟩ := Nat.ne_zero_implies_bit_true (Nat.one_le_iff_ne_zero.mp h1)
      refine ⟨index + i + 1, Finset.mem_image.mpr ⟨index, Finset.mem_filter.mpr ⟨?_, ht⟩, rfl⟩⟩
      rw [Finset.mem_range]
      by_contra hge
      rw [testBit_false_of_lt h2 (Nat.le_of_not_lt hge)] at ht
      cases ht
    · intro j hj
      obtain ⟨index, hindex, rfl⟩ := Finset.mem_image.mp hj
      have := Finset.mem_range.mp (Finset.mem_filter.mp hindex).1
      omega
    · ext x
      simp only [interBits, interOver, Finset.mem_filter, Finset.mem_image, Finset.mem_range]
      constructor
      · rintro ⟨hx, h⟩
        refine ⟨hx, ?_⟩
        rintro j ⟨index, ⟨hlt, ht⟩, rfl⟩
        exact h index hlt ht
      · rintro ⟨hx, h⟩
        exact ⟨hx, fun index hlt ht => h _ ⟨index, ⟨hlt, ht⟩, rfl⟩⟩
  · rintro ⟨S, hne, hS, rfl⟩
    obtain ⟨w, hw, ht⟩ := exists_testBit (C.Elements_.length - (i + 1))
      (fun index => decide (index + i + 1 ∈ S))
    refine ⟨w, ?_, hw, ?_⟩
    · obtain ⟨j, hj⟩ := hne
      have hb := hS j hj
      have h1 : w.testBit (j - (i + 1)) = true := by
        rw [ht]
        have e : j - (i + 1) + i + 1 = j := by omega
        simp only [e, hj, decide_True, Bool.and_true, decide_eq_true_eq]
        omega
      rw [Nat.one_le_iff_ne_zero]
      rintro rfl
      simp at h1
    · ext x
      simp only [interBits, interOver, Finset.mem_filter, ht, Bool.and_eq_true,
        decide_eq_true_eq]
      constructor
      · rintro ⟨hx, h⟩
        exact ⟨hx, fun index _ hm => h _ hm.2⟩
      · rintro ⟨hx, h⟩
        refine ⟨hx, fun j hj => ?_⟩
        have hb := hS j hj
        have e : j - (i + 1) + i + 1 = j := by omega
        have := h (j - (i + 1)) (by omega) ⟨by omega, by rw [e]; exact hj⟩
        rwa [e] at this

/-- C5. For every family `C` (with the container invariant) and every index
`i < Count(C)`, `MakeD(i, C)` returns a family whose members are exactly the
sets `C[i] ∩ C[j1] ∩ ... ∩ C[jm]` for the non-empty sets `S = {j1, ..., jm}` of
indices in `i + 1 .. Count(C) - 1`. -/
theorem MakeD_members (C : Family) (i : Nat) (hC : FamilyInv C)
    (hi : i < C.Elements_.length) :
    ∃ D, MakeD i C = .ok D ∧ FamilyInv D ∧
      ∀ X : Finset Int, X ∈ D.ElementsLookup_ ↔
        ∃ S : Finset Nat, S.Nonempty ∧ (∀ j ∈ S, i < j ∧ j < C.Elements_.length) ∧
          X = interOver C i S := by
  obtain ⟨D, h1, h2, h3⟩ := MakeD_spec hC hi
  exact ⟨D, h1, h2, fun X => (h3 X).trans (interBits_iff_interOver C i X)⟩

theorem MakeD_members_witness :
    FamilyInv overlapFamily ∧ 0 < overlapFamily.Elements_.length ∧
    ∃ D, MakeD 0 overlapFamily = .ok D ∧ FamilyInv D ∧
      ∀ X : Finset Int, X ∈ D.ElementsLookup_ ↔
        ∃ S : Finset Nat, S.Nonempty ∧ (∀ j ∈ S, 0 < j ∧ j < overlapFamily.Elements_.length) ∧
          X = interOver overlapFamily 0 S :=
  ⟨by decide, by decide, MakeD_members overlapFamily 0 (by decide) (by decide)⟩

theorem interBits_subset (C : Family) (i v : Nat) : interBits C i v ⊆ lookupAt C i :=
  Finset.filter_subset _ _

/-- C6. For every family `C` (with the container invariant) and every index
`i < Count(C)`, `MakeD(i, C)` returns a family, and `IsSubset(X, C[i])` holds
for every set `X` of its iteration sequence. -/
theorem MakeD_anchored (C : Family) (i : Nat) (hC : FamilyInv C)
    (hi : i < C.Elements_.length) :
    ∃ D, MakeD i C = .ok D ∧ ∀ X ∈ D.Elements_, IsSubset X C.Elements_[i] = true := by
  obtain ⟨D, h1, h2, h3⟩ := MakeD_spec hC hi
  refine ⟨D, h1, fun X hX => ?_⟩
  rw [IsSubset_iff (h2.2 X hX)]
  obtain ⟨w, -, -, hw⟩ := (h3 X.ElementsLookup_).mp
    ((Set.mem_lookup_iff h2.1 _).mpr ⟨X, hX, rfl⟩)
  rw [hw, ← lookupAt_eq hi]
  exact interBits_subset C i w

theorem MakeD_anchored_witness :
    FamilyInv overlapFamily ∧ ∃ h : 1 < overlapFamily.Elements_.length,
    ∃ D, MakeD 1 overlapFamily = .ok D ∧
      ∀ X ∈ D.Elements_, IsSubset X overlapFamily.Elements_[1] = true :=
  ⟨by decide, by decide, MakeD_anchored overlapFamily 1 (by decide) (by decide)⟩

theorem MakeD_last {C : Family} (hC : FamilyInv C) (hne : C.Elements_ ≠ []) :
    MakeD (C.Elements_.length - 1) C = .ok Set.empty := by
  have hpos : 0 < C.Elements_.length := List.length_pos.mpr hne
  obtain ⟨f, hf⟩ : ∃ f, 2 ^ C.Elements_.length = f + 1 :=
    ⟨2 ^ C.Elements_.length - 1, by have : 1 ≤ 2 ^ C.Elements_.length := Nat.one_le_two_pow; omega⟩
  unfold MakeD
  rw [Set.Get_eq (by omega), ok_bind, hf, MakeD.loop, Set.Count_of_Inv hC.1,
    Set.card_of_Inv hC.1, ok_bind, usub_of_le (Nat.sub_le _ _)]
  have : ¬ (Bitset.Count ⟨[true]⟩ < C.Elements_.length - (C.Elements_.length - 1)) := by
    simp only [Bitset.Count, List.length_singleton]; omega
  rw [if_neg this]; rfl

theorem MakeBeta_spec {C : Family} (hC : FamilyInv C) (hne : C.Elements_ ≠ []) :
    ∃ B, MakeBeta C = .ok B ∧ FamilyInv B ∧
      ∀ X, X ∈ B.ElementsLookup_ ↔
        ∃ i D, i < C.Elements_.length - 1 ∧ MakeD i C = .ok D ∧ X ∈ D.ElementsLookup_ := by
  have hpos : 0 < C.Elements_.length := List.length_pos.mpr hne
  have key := foldlM_range_inv
    (fun (B : Family) index => do
      let D ← MakeD index C
      pure (B.orAssign D))
    (fun k (B : Family) => FamilyInv B ∧ ∀ X, X ∈ B.ElementsLookup_ ↔
      ∃ i D, i < k ∧ MakeD i C = .ok D ∧ X ∈ D.ElementsLookup_)
    (C.Elements_.length - 1) Set.empty ⟨FamilyInv_empty, by simp⟩ ?_
  · obtain ⟨B, h1, h2, h3⟩ := key
    refine ⟨B, ?_, h2, h3⟩
    unfold MakeBeta
    rw [Set.Count_of_Inv hC.1, Set.card_of_Inv hC.1, ok_bind, usub_of_le hpos]
    exact h1
  · rintro k B hk ⟨hB, hL⟩
    obtain ⟨D, hD1, hD2, -⟩ := MakeD_spec hC (show k < C.Elements_.length by omega)
    dsimp only
    rw [hD1, ok_bind]
    refine ⟨_, rfl, FamilyInv_orAssign hB hD2, ?_⟩
    intro X
    rw [Set.orAssign_lookup_of_Inv _ hD2.1, Finset.mem_union, hL]
    constructor
    · rintro (⟨j, D', hj, r⟩ | hX)
      · exact ⟨j, D', Nat.lt_succ_of_lt hj, r⟩
      · exact ⟨k, D, Nat.lt_succ_self k, hD1, hX⟩
    · rintro ⟨j, D', hj, hD', hX⟩
      rcases Nat.lt_succ_iff_lt_or_eq.mp hj with h | rfl
      · exact Or.inl ⟨j, D', h, hD', hX⟩
      · rw [hD1, Except.ok.injEq] at hD'
        exact Or.inr (hD' ▸ hX)

/-- C7. For every non-empty family `C` (with the container invariant),
`MakeBeta(C)` returns a family `B`, and a set belongs to `B` if and only if it
belongs to `MakeD(i, C)` for some index `i` with `i <= Count(C) - 2`; the last
index contributes nothing, `MakeD(Count(C) - 1, C)` being empty, and `B` is
the empty family when `C` has one member. -/
theorem MakeBeta_members (C : Family) (hC : FamilyInv C) (hne : C.IsEmpty = false) :
    ∃ B, MakeBeta C = .ok B ∧
      (∀ X : Set Int, B.Has X = true ↔
        ∃ i D, i + 2 ≤ C.Elements_.length ∧ MakeD i C = .ok D ∧ D.Has X = true) ∧
      MakeD (C.Elements_.length - 1) C = .ok Set.empty ∧
      (C.Elements_.length = 1 → B = Set.empty) := by
  have hne' : C.Elements_ ≠ [] := by
    intro h
    have : C.ElementsLookup_ = ∅ := by rw [← hC.1.2, h]; rfl
    simp [Set.IsEmpty, this] at hne
  obtain ⟨B, h1, h2, h3⟩ := MakeBeta_spec hC hne'
  refine ⟨B, h1, ?_, MakeD_last hC hne', ?_⟩
  · intro X
    simp only [Set.Has, decide_eq_true_eq, key_set, h3]
    constructor
    · rintro ⟨i, D, hi, r⟩
      exact ⟨i, D, by omega, r⟩
    · rintro ⟨i, D, hi, r⟩
      exact ⟨i, D, by omega, r⟩
  · intro hone
    have : MakeBeta C = .ok Set.empty := by
      unfold MakeBeta
      rw [Set.Count_of_Inv hC.1, Set.card_of_Inv hC.1, ok_bind, hone]
      rfl
    rw [h1, Except.ok.injEq] at this
    exact this

theorem MakeBeta_members_witness :
    FamilyInv overlapFamily ∧ overlapFamily.IsEmpty = false ∧
    ∃ B, MakeBeta overlapFamily = .ok B ∧
      (∀ X : Set Int, B.Has X = true ↔
        ∃ i D, i + 2 ≤ overlapFamily.Elements_.length ∧ MakeD i overlapFamily = .ok D ∧
          D.Has X = true) ∧
      MakeD (overlapFamily.Elements_.length - 1) overlapFamily = .ok Set.empty ∧
      (overlapFamily.Elements_.length = 1 → B = Set.empty) :=
  ⟨by decide, by decide, MakeBeta_members overlapFamily (by decide) (by decide)⟩

/-! ## The forward phase -/

theorem above_mono (L : Finset (Finset Int)) {X Y : Finset Int} (h : X ⊆ Y) :
    above L Y ⊆ above L X := by
  intro A hA
  rw [above, Finset.mem_filter] at hA ⊢
  exact ⟨hA.1, h.trans hA.2⟩

theorem Deep_base {L : Finset (Finset Int)} {X : Finset Int} (h : X ∈ L) : Deep L 0 X := by
  have hX : X ∈ above L X := Finset.mem_filter.mpr ⟨h, Finset.Subset.refl X⟩
  exact ⟨Finset.card_pos.mpr ⟨X, hX⟩, fun x hx => hx X hX⟩

theorem Deep_bound {L : Finset (Finset Int)} {k : Nat} {X : Finset Int} (h : Deep L k X) :
    k + 1 ≤ L.card :=
  h.1.trans (Finset.card_le_card (Finset.filter_subset _ _))

theorem Deep_eq_of_above_eq {L : Finset (Finset Int)} {k : Nat} {Y Z : Finset Int}
    (hY : Deep L k Y) (hZ : Deep L k Z) (h : above L Y = above L Z) : Y = Z := by
  have aux : ∀ {P Q : Finset Int}, Deep L k Q → above L P = above L Q → P ⊆ Q := by
    intro P Q hQ hPQ x hx
    apply hQ.2
    intro A hA
    rw [← hPQ] at hA
    exact (Finset.mem_filter.mp hA).2 hx
  exact Finset.Subset.antisymm (aux hZ h) (aux hY h.symm)

theorem Deep_inter {L : Finset (Finset Int)} {k : Nat} {X Y Z : Finset Int}
    (hY : Deep L k Y) (hZ : Deep L k Z) (hne : Y ≠ Z) (hXY : X ⊆ Y) (hXZ : X ⊆ Z)
    (hX : ∀ x, (∀ A ∈ above L X, x ∈ A) → x ∈ X) : Deep L (k + 1) X := by
  refine ⟨?_, hX⟩
  have h1 : above L Y ∪ above L Z ⊆ above L X :=
    Finset.union_subset (above_mono L hXY) (above_mono L hXZ)
  refine le_trans ?_ (Finset.card_le_card h1)
  by_contra hlt
  have hle : (above L Y ∪ above L Z).card ≤ k + 1 := by omega
  have e1 : above L Y = above L Y ∪ above L Z :=
    Finset.eq_of_subset_of_card_le Finset.subset_union_left (hle.trans hY.1)
  have e2 : above L Z = above L Y ∪ above L Z :=
    Finset.eq_of_subset_of_card_le Finset.subset_union_right (hle.trans hZ.1)
  exact hne (Deep_eq_of_above_eq hY hZ (e1.trans e2.symm))

theorem lookupAt_mem {C : Family} (hC : FamilyInv C) {j : Nat} (hj : j < C.Elements_.length) :
    lookupAt C j ∈ C.ElementsLookup_ := by
  rw [lookupAt_eq hj, Set.mem_lookup_iff hC.1]
  exact ⟨_, List.getElem_mem _, rfl⟩

theorem lookupAt_ne {C : Family} (hC : FamilyInv C) {i j : Nat} (hij : i < j)
    (hj : j < C.Elements_.length) : lookupAt C i ≠ lookupAt C j := by
  have hi : i < C.Elements_.length := hij.trans hj
  rw [lookupAt_eq hi, lookupAt_eq hj]
  intro h
  have hi2 : i < (C.Elements_.map Key.key).length := by simpa using hi
  have hj2 : j < (C.Elements_.map Key.key).length := by simpa using hj
  have h1 : (C.Elements_.map Key.key)[i] = (C.Elements_.map Key.key)[j] := by
    simp only [List.getElem_map, key_set]; exact h
  have := (hC.1.1.getElem_inj_iff).mp h1
  omega

/-- Every member of `MakeBeta(C)` lies one level deeper than the members of `C`. -/
theorem MakeBeta_Deep {L : Finset (Finset Int)} {k : Nat} {C B : Family} (hC : FamilyInv C)
    (hne : C.Elements_ ≠ []) (hdeep : ∀ X ∈ C.ElementsLookup_, Deep L k X)
    (hB : MakeBeta C = .ok B) : ∀ X ∈ B.ElementsLookup_, Deep L (k + 1) X := by
  intro X hX
  obtain ⟨B', h1, -, h3⟩ := MakeBeta_spec hC hne
  rw [hB, Except.ok.injEq] at h1
  subst h1
  obtain ⟨i, D, hi, hD, hXD⟩ := (h3 X).mp hX
  have hi' : i < C.Elements_.length := by omega
  obtain ⟨D', hD1, -, hD3⟩ := MakeD_members C i hC hi'
  rw [hD, Except.ok.injEq] at hD1
  subst hD1
  obtain ⟨S, ⟨j0, hj0⟩, hS, rfl⟩ := (hD3 X).mp hXD
  have hsub : ∀ j, j = i ∨ j ∈ S → interOver C i S ⊆ lookupAt C j := by
    intro j hj x hx
    rw [interOver, Finset.mem_filter] at hx
    rcases hj with rfl | hj
    · exact hx.1
    · exact hx.2 j hj
  have hb := hS j0 hj0
  refine Deep_inter (hdeep _ (lookupAt_mem hC hi')) (hdeep _ (lookupAt_mem hC hb.2))
    (lookupAt_ne hC hb.1 hb.2) (hsub i (Or.inl rfl)) (hsub j0 (Or.inr hj0)) ?_
  intro x hx
  have hmem : ∀ j, j = i ∨ j ∈ S → x ∈ lookupAt C j := by
    intro j hj
    have hjlt : j < C.Elements_.length := by
      rcases hj with rfl | hj
      · exact hi'
      · exact (hS j hj).2
    apply (hdeep _ (lookupAt_mem hC hjlt)).2
    intro A hA
    exact hx A (above_mono L (hsub j hj) hA)
  rw [interOver, Finset.mem_filter]
  exact ⟨hmem i (Or.inl rfl), fun j hj => hmem j (Or.inr hj)⟩

theorem elements_ne_nil_of_not_IsEmpty {C : Family} (hC : FamilyInv C)
    (hne : C.IsEmpty = false) : C.Elements_ ≠ [] := by
  intro h
  have : C.ElementsLookup_ = ∅ := by rw [← hC.1.2, h]; rfl
  simp [Set.IsEmpty, this] at hne

theorem Forward_spec (L : Finset (Finset Int)) :
    ∀ (fuel k : Nat) (chain : List Family) (c : Family), chain.getLast? = some c →
      FamilyInv c → (∀ X ∈ c.ElementsLookup_, Deep L k X) → k ≤ L.card →
      L.card + 1 ≤ fuel + k → List.Chain' BetaStep chain →
      ∃ result, Forward fuel chain = .ok result ∧ result.length + k ≤ chain.length + L.card ∧
        result.head? = chain.head? ∧ List.Chain' BetaStep result ∧
        ∃ last, result.getLast? = some last ∧ last.IsEmpty = true := by
  intro fuel
  induction fuel with
  | zero => intro k chain c _ _ _ h1 h2; omega
  | succ fuel ih =>
    intro k chain c hlast hc hdeep hk hfuel hchain
    rw [Forward, hlast]
    dsimp only
    cases hE : c.IsEmpty
    · have hne := elements_ne_nil_of_not_IsEmpty hc hE
      obtain ⟨b, hb1, hb2, -⟩ := MakeBeta_spec hc hne
      have hk' : k + 1 ≤ L.card := by
        obtain ⟨X, hX⟩ : ∃ X, X ∈ c.ElementsLookup_ := by
          apply Finset.nonempty_iff_ne_empty.mpr
          simpa [Set.IsEmpty] using hE
        exact Deep_bound (hdeep X hX)
      have hcne : chain ≠ [] := by
        intro h; rw [h] at hlast; cases hlast
      simp only [Bool.not_false, if_true, hb1, ok_bind]
      obtain ⟨result, r1, r2, r3, r4, r5⟩ := ih (k + 1) (chain ++ [b]) b
        (List.getLast?_concat _) hb2 (MakeBeta_Deep hc hne hdeep hb1) hk' (by omega)
        (by
          rw [List.chain'_append]
          refine ⟨hchain, List.chain'_singleton b, ?_⟩
          intro x hx y hy
          rw [hlast, Option.mem_def, Option.some.injEq] at hx
          rw [List.head?_cons, Option.mem_def, Option.some.injEq] at hy
          subst hx; subst hy
          exact ⟨hE, hb1⟩)
      refine ⟨result, r1, ?_, ?_, r4, r5⟩
      · rw [List.length_append, List.length_singleton] at r2; omega
      · rw [r3, List.head?_append_of_ne_nil _ hcne]
    · simp only [Bool.not_true, Bool.false_eq_true, if_false, pure_eq_ok]
      exact ⟨chain, rfl, by omega, rfl, hchain, c, hlast, hE⟩

/-- C4. For every family `C_0` (with the container invariant) with `n` members,
the forward loop of `main`, started on the chain `[C_0]` and given room for
`n + 1` tests of its condition, returns a chain `C_0, ..., C_k` with
`C_{j+1} = MakeBeta(C_j)` and `C_j` not empty for `j < k`, whose last family
`C_k` is empty, and `k <= n` (the chain has at most `n + 1` families). -/
theorem Forward_terminates (C0 : Family) (hC : FamilyInv C0) (fuel : Nat)
    (hfuel : C0.Elements_.length + 1 ≤ fuel) :
    ∃ chain, Forward fuel [C0] = .ok chain ∧ chain.length ≤ C0.Elements_.length + 1 ∧
      chain.head? = some C0 ∧ List.Chain' BetaStep chain ∧
      ∃ last, chain.getLast? = some last ∧ last.IsEmpty = true := by
  have hcard := Set.card_of_Inv hC.1
  obtain ⟨chain, h1, h2, h3, h4, h5⟩ := Forward_spec C0.ElementsLookup_ fuel 0 [C0] C0 rfl hC
    (fun X hX => Deep_base hX) (Nat.zero_le _) (by omega) (List.chain'_singleton C0)
  refine ⟨chain, h1, ?_, h3, h4, h5⟩
  rw [List.length_singleton] at h2
  omega

theorem Forward_terminates_witness :
    FamilyInv overlapFamily ∧ overlapFamily.Elements_.length + 1 ≤ 4 ∧
    ∃ chain, Forward 4 [overlapFamily] = .ok chain ∧
      chain.length ≤ overlapFamily.Elements_.length + 1 ∧
      chain.head? = some overlapFamily ∧ List.Chain' BetaStep chain ∧
      ∃ last, chain.getLast? = some last ∧ last.IsEmpty = true :=
  ⟨by decide, by decide, Forward_terminates overlapFamily (by decide) 4 (by decide)⟩

/-! ## MakeFamilyFromBase -/

theorem mem_unionBits (Base : Family) (v : Nat) (x : Int) :
    x ∈ unionBits Base v ↔
      ∃ index, index < Base.Elements_.length ∧ v.testBit index = true ∧
        x ∈ lookupAt Base index := by
  simp only [unionBits, unionOver, Finset.mem_biUnion, Finset.mem_filter, Finset.mem_range]
  constructor
  · rintro ⟨index, ⟨h1, h2⟩, h3⟩; exact ⟨index, h1, h2, h3⟩
  · rintro ⟨index, h1, h2, h3⟩; exact ⟨index, ⟨h1, h2⟩, h3⟩

theorem MakeFamilyFromBase.union_spec {Base : Family} (hB : FamilyInv Base) (v : Nat) :
    ∃ U, MakeFamilyFromBase.union Base Base.Elements_.length ⟨Nat.bits v⟩ = .ok U ∧ U.Inv ∧
      U.ElementsLookup_ = unionBits Base v := by
  have key := foldlM_range_inv
    (fun (Union : Set Int) index =>
      if Bitset.Has ⟨Nat.bits v⟩ index then do
        let b ← Base.Get index
        pure (Union.orAssign b)
      else pure Union)
    (fun k (U : Set Int) => U.Inv ∧ ∀ x, x ∈ U.ElementsLookup_ ↔
      ∃ index, index < k ∧ v.testBit index = true ∧ x ∈ lookupAt Base index)
    Base.Elements_.length Set.empty ⟨Set.Inv_empty, by simp⟩ ?_
  · obtain ⟨U, h1, h2, h3⟩ := key
    refine ⟨U, h1, h2, ?_⟩
    ext x
    rw [h3, mem_unionBits]
  · rintro k U hk ⟨hU, hx⟩
    dsimp only
    rw [Bitset.Has_bits]
    cases hb : v.testBit k
    · refine ⟨U, rfl, hU, ?_⟩
      intro x
      rw [hx]
      constructor
      · rintro ⟨index, h1, r⟩
        exact ⟨index, Nat.lt_succ_of_lt h1, r⟩
      · rintro ⟨index, h1, h2, h3⟩
        rcases Nat.lt_succ_iff_lt_or_eq.mp h1 with h | rfl
        · exact ⟨index, h, h2, h3⟩
        · rw [hb] at h2; cases h2
    · have hbi : Base.Elements_[k].Inv := hB.2 _ (List.getElem_mem _)
      rw [if_pos rfl, Set.Get_eq hk, ok_bind]
      refine ⟨_, rfl, Set.Inv_orAssign hU _, ?_⟩
      intro x
      rw [Set.orAssign_lookup_of_Inv _ hbi, Finset.mem_union, hx, ← lookupAt_eq hk]
      constructor
      · rintro (⟨index, h1, r⟩ | h)
        · exact ⟨index, Nat.lt_succ_of_lt h1, r⟩
        · exact ⟨k, Nat.lt_succ_self k, hb, h⟩
      · rintro ⟨index, h1, h2, h3⟩
        rcases Nat.lt_succ_iff_lt_or_eq.mp h1 with h | rfl
        · exact Or.inl ⟨index, h, h2, h3⟩
        · exact Or.inr h3

theorem MakeFamilyFromBase.subset_loop_spec {Base : Family} (hB : FamilyInv Base) (SkipLimit : Int)
    (random : Nat → Int) (hr : ∀ k, random k > SkipLimit) :
    ∀ (fuel calls v : Nat) (F : Family), v ≤ 2 ^ Base.Elements_.length →
      2 ^ Base.Elements_.length - v < fuel → FamilyInv F →
      (∀ X, X ∈ F.ElementsLookup_ ↔ ∃ w, w < v ∧ X = unionBits Base w) →
      ∃ F', MakeFamilyFromBase.loop Base SkipLimit random fuel calls ⟨Nat.bits v⟩ F = .ok F' ∧
        FamilyInv F' ∧
        ∀ X, X ∈ F'.ElementsLookup_ ↔
          ∃ w, w < 2 ^ Base.Elements_.length ∧ X = unionBits Base w := by
  intro fuel
  induction fuel with
  | zero => intro calls v F _ h; omega
  | succ fuel ih =>
    intro calls v F hv hf hF hL
    rw [MakeFamilyFromBase.loop, Set.Count_of_Inv hB.1, Set.card_of_Inv hB.1, ok_bind,
      Bitset.Count_bits]
    have hcond : Nat.size v ≤ Base.Elements_.length ↔ v < 2 ^ Base.Elements_.length :=
      Nat.size_le
    by_cases hlt : v < 2 ^ Base.Elements_.length
    · rw [if_pos (hcond.mpr hlt), if_pos (hr calls)]
      obtain ⟨U, hU1, hU2, hU3⟩ := MakeFamilyFromBase.union_spec hB v
      rw [hU1, ok_bind, Bitset.incr_bits]
      apply ih (calls + 1) (v + 1) (F.Add U) (by omega) (by omega) (FamilyInv_Add hF hU2)
      intro X
      rw [Set.Add_lookup, Finset.mem_insert, hL, key_set, hU3]
      constructor
      · rintro (rfl | ⟨w, h1, h2⟩)
        · exact ⟨v, Nat.lt_succ_self v, rfl⟩
        · exact ⟨w, Nat.lt_succ_of_lt h1, h2⟩
      · rintro ⟨w, h1, h2⟩
        rcases Nat.lt_succ_iff_lt_or_eq.mp h1 with h | rfl
        · exact Or.inr ⟨w, h, h2⟩
        · exact Or.inl h2
    · rw [if_neg (fun h => hlt (hcond.mp h))]
      have hv' : v = 2 ^ Base.Elements_.length := by omega
      exact ⟨F, rfl, hF, by rw [← hv']; exact hL⟩

theorem unionBits_iff_unionOver (Base : Family) (X : Finset Int) :
    (∃ w, w < 2 ^ Base.Elements_.length ∧ X = unionBits Base w) ↔
      ∃ S : Finset Nat, S ⊆ Finset.range Base.Elements_.length ∧ X = unionOver Base S := by
  constructor
  · rintro ⟨w, -, rfl⟩
    exact ⟨_, Finset.filter_subset _ _, rfl⟩
  · rintro ⟨S, hS, rfl⟩
    obtain ⟨w, hw, ht⟩ := exists_testBit Base.Elements_.length (fun index => decide (index ∈ S))
    refine ⟨w, hw, ?_⟩
    unfold unionBits
    congr 1
    ext index
    simp only [Finset.mem_filter, Finset.mem_range, ht, Bool.and_eq_true, decide_eq_true_eq]
    constructor
    · intro h; exact ⟨Finset.mem_range.mp (hS h), Finset.mem_range.mp (hS h), h⟩
    · rintro ⟨-, -, h⟩; exact h

/-- When no call of `random` returns a value that makes the loop skip, the
members of the family are exactly the unions of the subsets of the base. -/
theorem MakeFamilyFromBase_full {Base : Family} (hB : FamilyInv Base) (SkipLimit : Int)
    (random : Nat → Int) (hr : ∀ k, random k > SkipLimit) :
    ∃ F, MakeFamilyFromBase Base SkipLimit random = .ok F ∧ FamilyInv F ∧
      ∀ X, X ∈ F.ElementsLookup_ ↔
        ∃ S : Finset Nat, S ⊆ Finset.range Base.Elements_.length ∧ X = unionOver Base S := by
  obtain ⟨F, h1, h2, h3⟩ := MakeFamilyFromBase.subset_loop_spec hB SkipLimit random hr
    (2 ^ Base.Elements_.length + 1) 0 0 Set.empty (Nat.zero_le _)
    (Nat.lt_succ_of_le (Nat.sub_le _ _)) FamilyInv_empty
    (by intro X; simp)
  refine ⟨F, ?_, h2, fun X => (h3 X).trans (unionBits_iff_unionOver Base X)⟩
  unfold MakeFamilyFromBase
  rw [← Nat.zero_bits]
  exact h1

/-! ## The end-to-end scenario -/

/-- Among the unions of subfamilies of pairwise disjoint non-empty sets `L j`,
the ones that are not a union of strictly smaller ones are the sets `L j`. -/
theorem irredundant_iff_base (n : Nat) (L : Nat → Finset Int) (Fam : Finset (Finset Int))
    (hne : ∀ j, j < n → (L j).Nonempty)
    (hdis : ∀ i j, i < n → j < n → i ≠ j → Disjoint (L i) (L j))
    (hFam : ∀ X, X ∈ Fam ↔ ∃ S : Finset Nat, S ⊆ Finset.range n ∧ X = S.biUnion L)
    (X : Finset Int) :
    (X ∈ Fam ∧ ¬ ∃ G : Finset (Finset Int), G ⊆ Fam ∧ (∀ B ∈ G, B.card < X.card) ∧
        G.biUnion id = X) ↔ ∃ j, j < n ∧ X = L j := by
  constructor
  · rintro ⟨hX, hirr⟩
    obtain ⟨S, hS, rfl⟩ := (hFam X).mp hX
    by_contra hno
    apply hirr
    refine ⟨S.image L, ?_, ?_, ?_⟩
    · intro B hB
      obtain ⟨j, hj, rfl⟩ := Finset.mem_image.mp hB
      rw [hFam]
      exact ⟨{j}, Finset.singleton_subset_iff.mpr (hS hj), by rw [Finset.singleton_biUnion]⟩
    · intro B hB
      obtain ⟨j, hj, rfl⟩ := Finset.mem_image.mp hB
      by_contra hge
      apply hno
      refine ⟨j, Finset.mem_range.mp (hS hj), ?_⟩
      exact (Finset.eq_of_subset_of_card_le (Finset.subset_biUnion_of_mem L hj)
        (Nat.le_of_not_lt hge)).symm
    · rw [Finset.image_biUnion]; rfl
  · rintro ⟨j, hj, rfl⟩
    refine ⟨(hFam _).mpr ⟨{j}, Finset.singleton_subset_iff.mpr (Finset.mem_range.mpr hj),
      by rw [Finset.singleton_biUnion]⟩, ?_⟩
    rintro ⟨G, hG, hcard, hunion⟩
    obtain ⟨x, hx⟩ := hne j hj
    have hx' := hx
    rw [← hunion, Finset.mem_biUnion] at hx'
    obtain ⟨B, hB, hxB⟩ := hx'
    obtain ⟨S, hS, rfl⟩ := (hFam B).mp (hG hB)
    obtain ⟨i, hi, hxi⟩ := Finset.mem_biUnion.mp hxB
    have hij : i = j := by
      by_contra hne'
      exact Finset.disjoint_left.mp
        (hdis i j (Finset.mem_range.mp (hS hi)) hj hne') hxi hx
    subst hij
    have := Finset.card_le_card (Finset.subset_biUnion_of_mem L hi)
    have := hcard _ hB
    omega

theorem Sigma.result_lookup {F : Family} (hF : FamilyInv F) (X : Finset Int) :
    X ∈ (Sigma.result F).ElementsLookup_ ↔ X ∈ F.ElementsLookup_ ∧
      ¬ ∃ G : Finset (Finset Int), G ⊆ F.ElementsLookup_ ∧ (∀ B ∈ G, B.card < X.card) ∧
        G.biUnion id = X := by
  have := Sigma.result_Has hF ⟨[], X⟩
  simpa [Set.Has] using this

theorem mem_lookup_iff_lookupAt {Base : Family} (hB : FamilyInv Base) (X : Finset Int) :
    X ∈ Base.ElementsLookup_ ↔ ∃ j, j < Base.Elements_.length ∧ X = lookupAt Base j := by
  rw [Set.mem_lookup_iff hB.1]
  constructor
  · rintro ⟨A, hA, rfl⟩
    obtain ⟨j, hj, rfl⟩ := List.getElem_of_mem hA
    exact ⟨j, hj, (lookupAt_eq hj).symm⟩
  · rintro ⟨j, hj, rfl⟩
    exact ⟨_, List.getElem_mem hj, (lookupAt_eq hj).symm⟩

/-- On the family of all unions of subsets of a base of pairwise disjoint
non-empty sets, `Sigma` keeps exactly the base sets. -/
theorem Sigma_unions_of_base {Base F : Family} (hB : FamilyInv Base)
    (hne : ∀ A ∈ Base.Elements_, A.IsEmpty = false)
    (hdis : Base.Elements_.Pairwise (fun A B => Disjoint A.ElementsLookup_ B.ElementsLookup_))
    (hF : FamilyInv F)
    (hU : ∀ X, X ∈ F.ElementsLookup_ ↔
      ∃ S : Finset Nat, S ⊆ Finset.range Base.Elements_.length ∧ X = unionOver Base S) :
    (Sigma.result F).ElementsLookup_ = Base.ElementsLookup_ := by
  ext X
  rw [Sigma.result_lookup hF, mem_lookup_iff_lookupAt hB]
  apply irredundant_iff_base Base.Elements_.length (lookupAt Base) F.ElementsLookup_
  · intro j hj
    rw [lookupAt_eq hj]
    apply Finset.nonempty_iff_ne_empty.mpr
    simpa [Set.IsEmpty] using hne _ (List.getElem_mem hj)
  · intro i j hi hj hij
    rw [lookupAt_eq hi, lookupAt_eq hj]
    rw [List.pairwise_iff_getElem] at hdis
    rcases Nat.lt_or_gt_of_ne hij with h | h
    · exact hdis i j hi hj h
    · exact (hdis j i hj hi h).symm
  · exact hU

/-- C9. For every base family (with the container invariant) of pairwise
disjoint non-empty sets, when no subset is omitted (every value of the random
source is above the skip limit 0) `MakeFamilyFromBase` returns the family `F`
of all unions of subsets of the base, and `Sigma(F)` is a family whose members
are exactly the base sets: `{}` and the unions of two or more base sets are
dropped. -/
theorem Sigma_of_MakeFamilyFromBase (Base : Family) (random : Nat → Int)
    (hB : FamilyInv Base) (hne : ∀ A ∈ Base.Elements_, A.IsEmpty = false)
    (hdis : Base.Elements_.Pairwise (fun A B => Disjoint A.ElementsLookup_ B.ElementsLookup_))
    (hr : ∀ k, 0 < random k) :
    ∃ F R, MakeFamilyFromBase Base 0 random = .ok F ∧
      (∀ X, X ∈ F.ElementsLookup_ ↔
        ∃ S : Finset Nat, S ⊆ Finset.range Base.Elements_.length ∧ X = unionOver Base S) ∧
      Sigma F = .ok R ∧ FamilyInv R ∧ R.ElementsLookup_ = Base.ElementsLookup_ := by
  obtain ⟨F, h1, h2, h3⟩ := MakeFamilyFromBase_full hB 0 random hr
  exact ⟨F, Sigma.result F, h1, h3, Sigma_eq_result h2, Sigma.result_Inv h2,
    Sigma_unions_of_base hB hne hdis h2 h3⟩

theorem Sigma_of_MakeFamilyFromBase_witness :
    (FamilyInv scenarioBase ∧ (∀ A ∈ scenarioBase.Elements_, A.IsEmpty = false) ∧
      scenarioBase.Elements_.Pairwise
        (fun A B => Disjoint A.ElementsLookup_ B.ElementsLookup_) ∧
      MakeFamilyFromBase scenarioBase 0 (fun _ => 1) = .ok scenarioFamily ∧
      Sigma scenarioFamily = .ok scenarioBase) ∧
    ∃ F R, MakeFamilyFromBase scenarioBase 0 (fun _ => 1) = .ok F ∧
      (∀ X, X ∈ F.ElementsLookup_ ↔
        ∃ S : Finset Nat, S ⊆ Finset.range scenarioBase.Elements_.length ∧
          X = unionOver scenarioBase S) ∧
      Sigma F = .ok R ∧ FamilyInv R ∧ R.ElementsLookup_ = scenarioBase.ElementsLookup_ :=
  ⟨by decide, Sigma_of_MakeFamilyFromBase scenarioBase (fun _ => 1) (by decide) (by decide)
    (by decide) (fun _ => Int.one_pos)⟩

/-- C8. With skip limit 0 a call of `random` that returns 0, a value of its range
`[0, SHRT_MAX]`, makes `MakeFamilyFromBase` omit a subset: on the base
`{ {1,2}, {3,4} }`, when the third call returns 0 the union `{3,4}` is missing
from the returned family `{ {}, {1,2}, {1,2,3,4} }`. -/
theorem MakeFamilyFromBase_omits :
    (∀ k, 0 ≤ (fun k => if k = 2 then (0 : Int) else 5) k ∧
      (fun k => if k = 2 then (0 : Int) else 5) k ≤ 32767) ∧
    MakeFamilyFromBase scenarioBase 0 (fun k => if k = 2 then 0 else 5) =
      .ok (Set.ofList [Set.ofList [], Set.ofList [1, 2], Set.ofList [1, 2, 3, 4]]) ∧
    (Set.ofList [Set.ofList [], Set.ofList [1, 2], Set.ofList [1, 2, 3, 4]] : Family).Has
      (Set.ofList [3, 4]) = false :=
  ⟨fun k => by dsimp only; split <;> decide, by decide, by decide⟩

/-! ## MakeAltEta -/

section Removal

variable {α κ : Type} [Key α κ] [DecidableEq κ]

theorem eraseP_keys (l : List α) (k : κ) (h : (l.map Key.key).Nodup) :
    ((l.eraseP (fun e => decide (Key.key e = k))).map Key.key).toFinset =
      (l.map Key.key).toFinset.erase k := by
  induction l with
  | nil => simp
  | cons a l ih =>
    rw [List.map_cons, List.nodup_cons] at h
    by_cases ha : Key.key a = k
    · rw [List.eraseP_cons_of_pos (by simpa using ha), List.map_cons, List.toFinset_cons, ha,
        Finset.erase_insert]
      rw [List.mem_toFinset, ← ha]
      exact h.1
    · rw [List.eraseP_cons_of_neg (by simpa using ha), List.map_cons, List.toFinset_cons,
        ih h.2, List.map_cons, List.toFinset_cons, Finset.erase_insert_of_ne ha]

theorem Set.TryRemove_of_Inv {s : Set α} (h : s.Inv) (x : α) :
    ∃ b s', s.TryRemove x = .ok (b, s') ∧ s'.Inv ∧
      s'.ElementsLookup_ = s.ElementsLookup_.erase (Key.key x) := by
  unfold Set.TryRemove
  by_cases hx : Key.key x ∈ s.ElementsLookup_
  · have hany : s.Elements_.any (fun e => decide (Key.key e = Key.key x)) = true := by
      obtain ⟨e, he, hk⟩ := (Set.mem_lookup_iff h _).mp hx
      rw [List.any_eq_true]
      exact ⟨e, he, by simpa using hk⟩
    rw [if_pos hx, if_pos hany]
    refine ⟨true, _, rfl, ⟨?_, ?_⟩, rfl⟩
    · exact ((List.eraseP_sublist _).map _).nodup h.1
    · show _ = s.ElementsLookup_.erase (Key.key x)
      rw [eraseP_keys _ _ h.1, h.2]
  · rw [if_neg hx]
    exact ⟨false, s, rfl, h, (Finset.erase_eq_of_not_mem hx).symm⟩

theorem Set.foldlM_TryRemove (l : List α) {s : Set α} (h : s.Inv) :
    ∃ s', l.foldlM (fun (t : Set α) element => (t.TryRemove element).map Prod.snd) s = .ok s' ∧
      s'.Inv ∧ s'.ElementsLookup_ = s.ElementsLookup_ \ (l.map Key.key).toFinset := by
  induction l generalizing s with
  | nil => exact ⟨s, rfl, h, by simp⟩
  | cons x l ih =>
    obtain ⟨b, t, h1, h2, h3⟩ := Set.TryRemove_of_Inv h x
    obtain ⟨s', h4, h5, h6⟩ := ih h2
    refine ⟨s', ?_, h5, ?_⟩
    · rw [List.foldlM_cons, h1]
      exact h4
    · rw [h6, h3, List.map_cons, List.toFinset_cons, Finset.sdiff_insert,
        Finset.erase_sdiff_comm]

theorem Set.subAssign_of_Inv {s : Set α} (h : s.Inv) {o : Set α} (ho : o.Inv) :
    ∃ s', s.subAssign o = .ok s' ∧ s'.Inv ∧
      s'.ElementsLookup_ = s.ElementsLookup_ \ o.ElementsLookup_ := by
  obtain ⟨s', h1, h2, h3⟩ := Set.foldlM_TryRemove o.Elements_ h
  exact ⟨s', h1, h2, by rw [h3, ho.2]⟩

end Removal

theorem MakeAltEta.scan_cons (v : Set Int) (Vl : List (Set Int)) (L : Finset (Finset Int))
    (H_new : Family) (h : Set Int) :
    MakeAltEta.scan ⟨v :: Vl, L⟩ H_new h =
      (if !v.IsEmpty && IsSubset v h then do
          let h' ← h.subAssign v
          pure (H_new.Add v, h')
        else pure (H_new, h)) >>= fun st => MakeAltEta.scan ⟨Vl, L⟩ st.1 st.2 := by
  unfold MakeAltEta.scan
  rw [List.foldlM_cons]

/-- The loop over `v` follows the greedy decomposition of the specification. -/
theorem MakeAltEta.scan_spec (Vl : List (Set Int)) (L : Finset (Finset Int))
    (hV : ∀ v ∈ Vl, v.Inv) :
    ∀ (H_new : Family) (h : Set Int), FamilyInv H_new → h.Inv →
      ∃ H' h', MakeAltEta.scan ⟨Vl, L⟩ H_new h = .ok (H', h') ∧ FamilyInv H' ∧ h'.Inv ∧
        H'.ElementsLookup_ = H_new.ElementsLookup_ ∪
          (AltEta.pieces (Vl.map Key.key) h.ElementsLookup_).1.toFinset ∧
        h'.ElementsLookup_ = (AltEta.pieces (Vl.map Key.key) h.ElementsLookup_).2 := by
  induction Vl with
  | nil =>
    intro H_new h hH hh
    exact ⟨H_new, h, rfl, hH, hh, by simp [AltEta.pieces], rfl⟩
  | cons v Vl ih =>
    intro H_new h hH hh
    have hv : v.Inv := hV v (List.mem_cons_self _ _)
    have ih' := ih (fun w hw => hV w (List.mem_cons_of_mem _ hw))
    rw [MakeAltEta.scan_cons, List.map_cons, AltEta.pieces, key_set]
    by_cases hc : v.ElementsLookup_ ≠ ∅ ∧ v.ElementsLookup_ ⊆ h.ElementsLookup_
    · have hb : (!v.IsEmpty && IsSubset v h) = true := by
        rw [Bool.and_eq_true, IsSubset_iff hv]
        exact ⟨by simpa [Set.IsEmpty] using hc.1, hc.2⟩
      obtain ⟨h1, e1, i1, l1⟩ := Set.subAssign_of_Inv hh hv
      rw [if_pos hb, if_pos hc, e1, ok_bind, pure_eq_ok, ok_bind]
      obtain ⟨H', h', r1, r2, r3, r4, r5⟩ := ih' (H_new.Add v) h1 (FamilyInv_Add hH hv) i1
      refine ⟨H', h', r1, r2, r3, ?_, ?_⟩
      · rw [r4, l1, Set.Add_lookup, key_set]
        ext X
        simp only [Finset.mem_union, Finset.mem_insert, List.toFinset_cons]
        tauto
      · rw [r5, l1]
    · have hb : ¬ (!v.IsEmpty && IsSubset v h) = true := by
        rw [Bool.and_eq_true, IsSubset_iff hv]
        intro hb
        exact hc ⟨by simpa [Set.IsEmpty] using hb.1, hb.2⟩
      rw [if_neg hb, if_neg hc, pure_eq_ok, ok_bind]
      exact ih' H_new h hH hh

/-- The greedy decomposition splits the working copy: the selected sets are
non-empty members of `V` inside `h`, pairwise disjoint and disjoint from the
residual, and together with the residual they make up `h`. -/
theorem AltEta.pieces_spec (V : List (Finset Int)) :
    ∀ h : Finset Int,
      (∀ X ∈ (AltEta.pieces V h).1,
        X ∈ V ∧ X ≠ ∅ ∧ X ⊆ h ∧ Disjoint X (AltEta.pieces V h).2) ∧
      (AltEta.pieces V h).2 ⊆ h ∧
      (AltEta.pieces V h).1.Pairwise Disjoint ∧
      (AltEta.pieces V h).1.foldr (fun X acc => X ∪ acc) ∅ ∪ (AltEta.pieces V h).2 = h := by
  induction V with
  | nil =>
    intro h
    simp [AltEta.pieces]
  | cons v V ih =>
    intro h
    rw [AltEta.pieces]
    by_cases hc : v ≠ ∅ ∧ v ⊆ h
    · rw [if_pos hc]
      obtain ⟨i1, i2, i3, i4⟩ := ih (h \ v)
      have hsd : ∀ {X : Finset Int}, X ⊆ h \ v → Disjoint v X := fun hX =>
        Finset.disjoint_of_subset_right hX Finset.disjoint_sdiff
      refine ⟨?_, i2.trans Finset.sdiff_subset, ?_, ?_⟩
      · intro X hX
        rcases List.mem_cons.mp hX with rfl | hX
        · exact ⟨List.mem_cons_self _ _, hc.1, hc.2, hsd i2⟩
        · obtain ⟨a, b, c, d⟩ := i1 X hX
          exact ⟨List.mem_cons_of_mem _ a, b, c.trans Finset.sdiff_subset, d⟩
      · rw [List.pairwise_cons]
        exact ⟨fun X hX => hsd (i1 X hX).2.2.1, i3⟩
      · rw [List.foldr_cons, Finset.union_assoc, i4]
        exact Finset.union_sdiff_of_subset hc.2
    · rw [if_neg hc]
      obtain ⟨i1, i2, i3, i4⟩ := ih h
      refine ⟨?_, i2, i3, i4⟩
      intro X hX
      obtain ⟨a, b, c, d⟩ := i1 X hX
      exact ⟨List.mem_cons_of_mem _ a, b, c, d⟩

theorem MakeAltEta.outer_spec (V : Family) (hV : FamilyInv V) (Hl : List (Set Int))
    (hH : ∀ h ∈ Hl, h.Inv) :
    ∀ H_new : Family, FamilyInv H_new →
      ∃ R, Hl.foldlM (fun (H_new : Family) h_ => do
          let st ← MakeAltEta.scan V H_new h_.copy
          pure (st.1.Add st.2)) H_new = .ok R ∧ FamilyInv R ∧
        ∀ X, X ∈ R.ElementsLookup_ ↔ X ∈ H_new.ElementsLookup_ ∨
          ∃ h ∈ Hl, X ∈ (AltEta.pieces (V.Elements_.map Key.key) h.ElementsLookup_).1 ∨
            X = (AltEta.pieces (V.Elements_.map Key.key) h.ElementsLookup_).2 := by
  induction Hl with
  | nil =>
    intro H_new hN
    exact ⟨H_new, rfl, hN, by simp⟩
  | cons h Hl ih =>
    intro H_new hN
    have hh : h.Inv := hH h (List.mem_cons_self _ _)
    obtain ⟨H', h', e1, i1, i2, l1, l2⟩ :=
      MakeAltEta.scan_spec V.Elements_ V.ElementsLookup_ hV.2 H_new h hN hh
    obtain ⟨R, e2, i3, l3⟩ := ih (fun w hw => hH w (List.mem_cons_of_mem _ hw))
      (H'.Add h') (FamilyInv_Add i1 i2)
    refine ⟨R, ?_, i3, ?_⟩
    · rw [List.foldlM_cons, Set.copy_of_Inv hh, e1]
      exact e2
    · intro X
      rw [l3, Set.Add_lookup, Finset.mem_insert, l1, Finset.mem_union, List.mem_toFinset,
        key_set, l2]
      simp only [List.mem_cons, exists_eq_or_imp]
      constructor
      · rintro ((h1 | h1 | h1) | h1)
        · exact Or.inr (Or.inl (Or.inr h1))
        · exact Or.inl h1
        · exact Or.inr (Or.inl (Or.inl h1))
        · exact Or.inr (Or.inr h1)
      · rintro (h1 | (h1 | h1) | h1)
        · exact Or.inl (Or.inr (Or.inl h1))
        · exact Or.inl (Or.inr (Or.inr h1))
        · exact Or.inl (Or.inl h1)
        · exact Or.inr h1

/-- C10. For all families `H` and `V` (with the container invariant),
`MakeAltEta(H, V)` returns a family whose members are exactly the selected
sets and the residuals of the greedy decomposition of the members `h` of `H`;
for every such `h` the selected sets are non-empty members of `V`, subsets of
`h`, pairwise disjoint and disjoint from the final residual, the residual is a
subset of `h`, and the union of the selected sets and the residual is `h`. -/
theorem MakeAltEta_decomposes (H V : Family) (hH : FamilyInv H) (hV : FamilyInv V) :
    ∃ R, MakeAltEta H V = .ok R ∧ FamilyInv R ∧
      (∀ X, X ∈ R.ElementsLookup_ ↔
        ∃ h ∈ H.Elements_,
          X ∈ (AltEta.pieces (V.Elements_.map Key.key) h.ElementsLookup_).1 ∨
          X = (AltEta.pieces (V.Elements_.map Key.key) h.ElementsLookup_).2) ∧
      ∀ h ∈ H.Elements_,
        (∀ X ∈ (AltEta.pieces (V.Elements_.map Key.key) h.ElementsLookup_).1,
          X ∈ V.ElementsLookup_ ∧ X ≠ ∅ ∧ X ⊆ h.ElementsLookup_ ∧
          Disjoint X (AltEta.pieces (V.Elements_.map Key.key) h.ElementsLookup_).2) ∧
        (AltEta.pieces (V.Elements_.map Key.key) h.ElementsLookup_).2 ⊆ h.ElementsLookup_ ∧
        (AltEta.pieces (V.Elements_.map Key.key) h.ElementsLookup_).1.Pairwise Disjoint ∧
        (AltEta.pieces (V.Elements_.map Key.key) h.ElementsLookup_).1.foldr
            (fun X acc => X ∪ acc) ∅ ∪
          (AltEta.pieces (V.Elements_.map Key.key) h.ElementsLookup_).2 = h.ElementsLookup_ := by
  obtain ⟨R, h1, h2, h3⟩ := MakeAltEta.outer_spec V hV H.Elements_ hH.2 Set.empty FamilyInv_empty
  refine ⟨R, h1, h2, ?_, ?_⟩
  · intro X
    rw [h3]
    simp
  · intro h _
    obtain ⟨a, b, c, d⟩ := AltEta.pieces_spec (V.Elements_.map Key.key) h.ElementsLookup_
    refine ⟨fun X hX => ?_, b, c, d⟩
    obtain ⟨m, r⟩ := a X hX
    refine ⟨?_, r⟩
    rw [← hV.1.2]
    exact List.mem_toFinset.mpr m

theorem MakeAltEta_decomposes_witness :
    (FamilyInv etaH ∧ FamilyInv etaV ∧
      MakeAltEta etaH etaV =
        .ok (Set.ofList [Set.ofList [3], Set.ofList [1, 2], Set.ofList [4, 5],
          Set.ofList [6]])) ∧
    ∃ R, MakeAltEta etaH etaV = .ok R ∧ FamilyInv R ∧
      (∀ X, X ∈ R.ElementsLookup_ ↔
        ∃ h ∈ etaH.Elements_,
          X ∈ (AltEta.pieces (etaV.Elements_.map Key.key) h.ElementsLookup_).1 ∨
          X = (AltEta.pieces (etaV.Elements_.map Key.key) h.ElementsLookup_).2) ∧
      ∀ h ∈ etaH.Elements_,
        (∀ X ∈ (AltEta.pieces (etaV.Elements_.map Key.key) h.ElementsLookup_).1,
          X ∈ etaV.ElementsLookup_ ∧ X ≠ ∅ ∧ X ⊆ h.ElementsLookup_ ∧
          Disjoint X (AltEta.pieces (etaV.Elements_.map Key.key) h.ElementsLookup_).2) ∧
        (AltEta.pieces (etaV.Elements_.map Key.key) h.ElementsLookup_).2 ⊆ h.ElementsLookup_ ∧
        (AltEta.pieces (etaV.Elements_.map Key.key) h.ElementsLookup_).1.Pairwise Disjoint ∧
        (AltEta.pieces (etaV.Elements_.map Key.key) h.ElementsLookup_).1.foldr
            (fun X acc => X ∪ acc) ∅ ∪
          (AltEta.pieces (etaV.Elements_.map Key.key) h.ElementsLookup_).2 =
            h.ElementsLookup_ :=
  ⟨by decide, MakeAltEta_decomposes etaH etaV (by decide) (by decide)⟩

/-! ## The operators and methods of the container -/

section Operators

variable {α κ : Type} [Key α κ] [DecidableEq κ]

theorem Set.and_fold (l : List α) :
    l.foldl (fun (ret : Set α) element => if ret.Has element then ret.Add element else ret)
      Set.empty = Set.empty := by
  induction l with
  | nil => rfl
  | cons x l ih =>
    rw [List.foldl_cons]
    have : (Set.empty : Set α).Has x = false := by simp [Set.Has]
    rw [this]
    exact ih

/-- C13. The free function `operator&` returns the empty set for all sets `A`
and `B`, non-empty equal ones included: its test is made on the result under
construction, which is empty. -/
theorem operator_and_empty (A B : Set α) : A.and B = Set.empty :=
  Set.and_fold A.Elements_

/-- C14. For all sets `A` and `B`, after `A &= B` the iteration sequence of `A`
is the subsequence of its previous sequence made of the elements `x` with
`B.Has(x)`, and its lookup table holds exactly the keys of those elements. -/
theorem andAssign_filters (A B : Set α) :
    (A.andAssign B).Elements_ = A.Elements_.filter (fun x => B.Has x) ∧
    ∀ k, k ∈ (A.andAssign B).ElementsLookup_ ↔
      ∃ x ∈ A.Elements_, B.Has x = true ∧ Key.key x = k := by
  rw [Set.andAssign_eq]
  refine ⟨rfl, fun k => ?_⟩
  simp only [List.mem_toFinset, List.mem_map, List.mem_filter]
  constructor
  · rintro ⟨x, ⟨h1, h2⟩, h3⟩; exact ⟨x, h1, h2, h3⟩
  · rintro ⟨x, h1, h2, h3⟩; exact ⟨x, ⟨h1, h2⟩, h3⟩

theorem Set.or_lookup (A B : Set α) :
    (A.or B).ElementsLookup_ =
      (A.Elements_.map Key.key).toFinset ∪ (B.Elements_.map Key.key).toFinset := by
  unfold Set.or
  rw [Set.foldl_Add_lookup, Set.foldl_Add_lookup, Set.empty_lookup, Finset.empty_union]

/-- C16. For all sets `A` and `B`, `(A | B) == (B | A)` holds for `operator==`,
which compares the lookup tables. -/
theorem operator_or_comm (A B : Set α) : (A.or B).eq (B.or A) = true := by
  simp only [Set.eq, decide_eq_true_eq, Set.or_lookup]
  exact Finset.union_comm _ _

/-- The iteration orders of `A | B` and `B | A` may differ while the two sets
are equal for `operator==`. -/
theorem operator_or_order :
    (threeInts.or otherInts).Elements_ = [4, 7, 9, 1] ∧
    (otherInts.or threeInts).Elements_ = [9, 1, 4, 7] ∧
    (threeInts.or otherInts).eq (otherInts.or threeInts) = true := by
  decide

/-- C17. For every set `A` and element `x` with `A.Has(x)`, `A.Add(x)` leaves
`Count()` and the iteration sequence of `A` unchanged. -/
theorem Add_existing (A : Set α) (x : α) (h : A.Has x = true) :
    (A.Add x).Count = A.Count ∧ (A.Add x).Elements_ = A.Elements_ := by
  have hx : Key.key x ∈ A.ElementsLookup_ := by simpa [Set.Has] using h
  rw [Set.Add_of_mem hx]
  exact ⟨rfl, rfl⟩

theorem Add_existing_witness :
    threeInts.Has 7 = true ∧
    (threeInts.Add 7).Count = threeInts.Count ∧ (threeInts.Add 7).Elements_ = threeInts.Elements_ :=
  ⟨by decide, Add_existing threeInts 7 (by decide)⟩

theorem eraseP_eq_filter (l : List α) (k : κ) (h : (l.map Key.key).Nodup) :
    l.eraseP (fun e => decide (Key.key e = k)) = l.filter (fun e => decide (Key.key e ≠ k)) := by
  induction l with
  | nil => rfl
  | cons a l ih =>
    rw [List.map_cons, List.nodup_cons] at h
    by_cases ha : Key.key a = k
    · rw [List.eraseP_cons_of_pos (by simpa using ha), List.filter_cons_of_neg (by simpa using ha)]
      symm
      rw [List.filter_eq_self]
      intro e he
      simp only [ne_eq, decide_eq_true_eq]
      intro hek
      exact h.1 (ha ▸ hek ▸ List.mem_map_of_mem _ he)
    · rw [List.eraseP_cons_of_neg (by simpa using ha), List.filter_cons_of_pos (by simpa using ha),
        ih h.2]

/-- C18. On a set with the invariant, `Remove(x)` fails if and only if `x` is
absent; `TryRemove(x)` returns, with the value `Has(x)`, and afterwards `x` is
absent, the other elements are kept in their order and stay present, and the
set is unchanged when `x` was absent. -/
theorem Remove_TryRemove (s : Set α) (x : α) (h : s.Inv) :
    ((∃ e, s.Remove x = .error e) ↔ s.Has x = false) ∧
    ∃ t, s.TryRemove x = .ok (s.Has x, t) ∧ t.Has x = false ∧
      t.Elements_ = s.Elements_.filter (fun e => decide (Key.key e ≠ Key.key x)) ∧
      (∀ y, Key.key y ≠ Key.key x → t.Has y = s.Has y) ∧
      (s.Has x = true → s.Remove x = .ok t) ∧
      (s.Has x = false → t = s) := by
  by_cases hx : Key.key x ∈ s.ElementsLookup_
  · have hany : s.Elements_.any (fun e => decide (Key.key e = Key.key x)) = true := by
      obtain ⟨e, he, hk⟩ := (Set.mem_lookup_iff h _).mp hx
      rw [List.any_eq_true]
      exact ⟨e, he, by simpa using hk⟩
    have hHas : s.Has x = true := by simpa [Set.Has] using hx
    have hT : s.TryRemove x = .ok (true,
        ⟨s.Elements_.eraseP (fun e => decide (Key.key e = Key.key x)),
         s.ElementsLookup_.erase (Key.key x)⟩) := by
      unfold Set.TryRemove
      rw [if_pos hx, if_pos hany]
    have hR : s.Remove x = .ok
        ⟨s.Elements_.eraseP (fun e => decide (Key.key e = Key.key x)),
         s.ElementsLookup_.erase (Key.key x)⟩ := by
      unfold Set.Remove
      rw [if_pos hx, hT]
      rfl
    refine ⟨?_, _, by rw [hHas]; exact hT, ?_, ?_, ?_, fun _ => hR, ?_⟩
    · rw [hR, hHas]
      constructor
      · rintro ⟨e, he⟩; cases he
      · intro hf; cases hf
    · simp [Set.Has]
    · exact eraseP_eq_filter _ _ h.1
    · intro y hy
      simp [Set.Has, Finset.mem_erase, hy]
    · intro hf
      rw [hHas] at hf
      cases hf
  · have hHas : s.Has x = false := by simpa [Set.Has] using hx
    have hT : s.TryRemove x = .ok (false, s) := by
      unfold Set.TryRemove
      rw [if_neg hx]
    have hR : s.Remove x = .error .assertion := by
      unfold Set.Remove
      rw [if_neg hx]
    refine ⟨?_, s, by rw [hHas]; exact hT, hHas, ?_, fun _ _ => rfl, ?_, fun _ => rfl⟩
    · rw [hR, hHas]
      exact ⟨fun _ => rfl, fun _ => ⟨_, rfl⟩⟩
    · symm
      rw [List.filter_eq_self]
      intro e he
      simp only [ne_eq, decide_eq_true_eq]
      intro hek
      exact hx ((Set.mem_lookup_iff h _).mpr ⟨e, he, hek⟩)
    · intro hf
      rw [hHas] at hf
      cases hf

theorem Remove_TryRemove_witness :
    threeInts.Inv ∧
    (((∃ e, threeInts.Remove 7 = .error e) ↔ threeInts.Has 7 = false) ∧
    ∃ t, threeInts.TryRemove 7 = .ok (threeInts.Has 7, t) ∧ t.Has 7 = false ∧
      t.Elements_ = threeInts.Elements_.filter (fun e => decide (Key.key e ≠ Key.key (7 : Int))) ∧
      (∀ y : Int, Key.key y ≠ Key.key (7 : Int) → t.Has y = threeInts.Has y) ∧
      (threeInts.Has 7 = true → threeInts.Remove 7 = .ok t) ∧
      (threeInts.Has 7 = false → t = threeInts)) :=
  ⟨by decide, Remove_TryRemove threeInts 7 (by decide)⟩

theorem Set.orAssignSelf_fold (s : Set α) (l : List α)
    (hl : ∀ e ∈ l, Key.key e ∈ s.ElementsLookup_) :
    l.foldlM (fun (h : Set α) element =>
      if Key.key element ∈ h.ElementsLookup_ then (pure (h.Add element) : Except Fault (Set α))
      else Except.error Fault.undefined) s = Except.ok s := by
  induction l with
  | nil => rfl
  | cons x l ih =>
    have hx := hl x (List.mem_cons_self _ _)
    rw [List.foldlM_cons, if_pos hx, Set.Add_of_mem hx, pure_eq_ok, ok_bind]
    exact ih (fun e he => hl e (List.mem_cons_of_mem _ he))

theorem Set.orAssignSelf_of_Inv {s : Set α} (h : s.Inv) : s.orAssignSelf = .ok s :=
  Set.orAssignSelf_fold s s.Elements_
    (fun e he => (Set.mem_lookup_iff h _).mpr ⟨e, he, rfl⟩)

theorem Set.addAssignSelf_of_Inv {s : Set α} (h : s.Inv) : s.addAssignSelf = .ok s :=
  Set.orAssignSelf_fold s s.Elements_
    (fun e he => (Set.mem_lookup_iff h _).mpr ⟨e, he, rfl⟩)

theorem Set.assignSelf_eq (s : Set α) : s.assignSelf = .ok s.Clear := rfl

theorem Set.subAssignSelf_of_nil {s : Set α} (h : s.Elements_ = []) :
    s.subAssignSelf = .ok s := by
  unfold Set.subAssignSelf
  rw [h]
  rfl

theorem Set.subAssignSelf_of_ne_nil {s : Set α} (h : s.Inv) (hne : s.Elements_ ≠ []) :
    s.subAssignSelf = .error .undefined := by
  obtain ⟨x, l, hl⟩ := List.exists_cons_of_ne_nil hne
  have hxmem : x ∈ s.Elements_ := by rw [hl]; exact List.mem_cons_self _ _
  have hx : Key.key x ∈ s.ElementsLookup_ := (Set.mem_lookup_iff h _).mpr ⟨x, hxmem, rfl⟩
  have hany : s.Elements_.any (fun e => decide (Key.key e = Key.key x)) = true := by
    rw [List.any_eq_true]
    exact ⟨x, hxmem, by simp⟩
  have hT : s.TryRemove x = .ok (true,
      ⟨s.Elements_.eraseP (fun e => decide (Key.key e = Key.key x)),
       s.ElementsLookup_.erase (Key.key x)⟩) := by
    unfold Set.TryRemove
    rw [if_pos hx, if_pos hany]
  have hfold : ∀ (l' : List α), (x :: l').foldlM (fun (h : Set α) element => do
      let r ← h.TryRemove element
      if r.1 then (Except.error Fault.undefined : Except Fault (Set α)) else pure r.2) s =
        Except.error Fault.undefined := by
    intro l'
    rw [List.foldlM_cons, hT]
    rfl
  unfold Set.subAssignSelf
  rw [hl]
  exact hfold l

theorem Set.Reachable_Inv {s : Set α} (h : s.Reachable) : s.Inv := by
  induction h with
  | empty => exact Set.Inv_empty
  | Add s x _ ih => exact Set.Inv_Add ih x
  | TryRemove s x b t _ e ih =>
    obtain ⟨b', t', e', i', -⟩ := Set.TryRemove_of_Inv ih x
    rw [e, Except.ok.injEq, Prod.mk.injEq] at e'
    exact e'.2 ▸ i'
  | Remove s x t _ hx e ih =>
    obtain ⟨b', t', e', i', -⟩ := Set.TryRemove_of_Inv ih x
    have hx' : Key.key x ∈ s.ElementsLookup_ := by simpa [Set.Has] using hx
    unfold Set.Remove at e
    rw [if_pos hx', e'] at e
    have : t' = t := by
      have e2 : (Except.ok t' : Except Fault (Set α)) = Except.ok t := e
      rw [Except.ok.injEq] at e2
      exact e2
    exact this ▸ i'
  | Clear s _ _ => exact Set.Inv_empty
  | assign s other _ _ => exact Set.Inv_foldl_Add _ Set.Inv_empty
  | orAssign s other _ ih => exact Set.Inv_foldl_Add _ ih
  | addAssign s other _ ih => exact Set.Inv_foldl_Add _ ih
  | subAssign s other t _ e ih =>
    obtain ⟨t', e', i', -⟩ := Set.foldlM_TryRemove other.Elements_ ih
    have e2 : s.subAssign other = .ok t' := e'
    rw [e, Except.ok.injEq] at e2
    exact e2 ▸ i'
  | andAssign s other _ ih => exact Set.Inv_andAssign ih other
  | assignSelf s t _ e _ =>
    rw [Set.assignSelf_eq, Except.ok.injEq] at e
    exact e ▸ Set.Inv_empty
  | orAssignSelf s t _ e ih =>
    rw [Set.orAssignSelf_of_Inv ih, Except.ok.injEq] at e
    exact e ▸ ih
  | addAssignSelf s t _ e ih =>
    rw [Set.addAssignSelf_of_Inv ih, Except.ok.injEq] at e
    exact e ▸ ih
  | subAssignSelf s t _ e ih =>
    by_cases hne : s.Elements_ = []
    · rw [Set.subAssignSelf_of_nil hne, Except.ok.injEq] at e
      exact e ▸ ih
    · rw [Set.subAssignSelf_of_ne_nil ih hne] at e
      cases e

/-- C15, as amended. Every set reachable from the empty set by `Add`,
`TryRemove`, `Remove` of a present element, `Clear`, copy-assignment, `|=`,
`+=`, `-=` and `&=`, the operand being another object or the receiver itself
and every step being one that returns, has the invariant: its sequence holds
no two elements with the same key and the keys of the sequence are exactly the
keys of the lookup table. The assertion of `Count()` holds on it, and the next
step on it returns, whether `TryRemove`, `operator-=` with another object,
copy-assignment to itself (which leaves the empty set) or `|=` and `+=` with
itself, with one exception: `operator-=` with the set itself as operand
returns only on the empty set, and is undefined on every other one. -/
theorem Reachable_invariant (s : Set α) (h : s.Reachable) :
    (s.Elements_.map Key.key).Nodup ∧
    (∀ k, k ∈ s.ElementsLookup_ ↔ ∃ e ∈ s.Elements_, Key.key e = k) ∧
    s.Count = .ok s.Elements_.length ∧
    (∀ x, ∃ b t, s.TryRemove x = .ok (b, t)) ∧
    (∀ other : Set α, ∃ t, s.subAssign other = .ok t) ∧
    s.assignSelf = .ok s.Clear ∧ s.orAssignSelf = .ok s ∧ s.addAssignSelf = .ok s ∧
    (s.Elements_ = [] → s.subAssignSelf = .ok s) ∧
    (s.subAssignSelf = .error .undefined ↔ s.Elements_ ≠ []) := by
  have hi := Set.Reachable_Inv h
  refine ⟨hi.1, Set.mem_lookup_iff hi, ?_, ?_, ?_, Set.assignSelf_eq s,
    Set.orAssignSelf_of_Inv hi, Set.addAssignSelf_of_Inv hi, Set.subAssignSelf_of_nil, ?_⟩
  · rw [Set.Count_of_Inv hi, Set.card_of_Inv hi]
  · intro x
    obtain ⟨b, t, e, -⟩ := Set.TryRemove_of_Inv hi x
    exact ⟨b, t, e⟩
  · intro other
    obtain ⟨t, e, -⟩ := Set.foldlM_TryRemove other.Elements_ hi
    exact ⟨t, e⟩
  · constructor
    · intro e hnil
      rw [Set.subAssignSelf_of_nil hnil] at e
      cases e
    · exact Set.subAssignSelf_of_ne_nil hi

theorem Reachable_invariant_witness :
    reachedInts.Reachable ∧
    ((reachedInts.Elements_.map Key.key).Nodup ∧
    (∀ k, k ∈ reachedInts.ElementsLookup_ ↔ ∃ e ∈ reachedInts.Elements_, Key.key e = k) ∧
    reachedInts.Count = .ok reachedInts.Elements_.length ∧
    (∀ x, ∃ b t, reachedInts.TryRemove x = .ok (b, t)) ∧
    (∀ other : Set Int, ∃ t, reachedInts.subAssign other = .ok t) ∧
    reachedInts.assignSelf = .ok reachedInts.Clear ∧
    reachedInts.orAssignSelf = .ok reachedInts ∧
    reachedInts.addAssignSelf = .ok reachedInts ∧
    (reachedInts.Elements_ = [] → reachedInts.subAssignSelf = .ok reachedInts) ∧
    (reachedInts.subAssignSelf = .error .undefined ↔ reachedInts.Elements_ ≠ [])) :=
  ⟨Set.Reachable.andAssign _ _ (Set.Reachable.Add _ _ (Set.Reachable.Add _ _ Set.Reachable.empty)),
   Reachable_invariant reachedInts
    (Set.Reachable.andAssign _ _
      (Set.Reachable.Add _ _ (Set.Reachable.Add _ _ Set.Reachable.empty)))⟩

/-- C15, the sequence it does not cover. The set `{1}` is reached by one call
of `Add`; the step `A -= A` on it has no defined result, the loop ranging over
the vector from which `TryRemove` has erased, so no set is reached by it.
Copy-assignment of the same set to itself returns the empty set. -/
theorem subAssign_self_undefined :
    oneInt.Reachable ∧ oneInt.Elements_ = [1] ∧
    oneInt.subAssignSelf = .error .undefined ∧
    (¬ ∃ t, oneInt.subAssignSelf = .ok t) ∧
    oneInt.assignSelf = .ok Set.empty :=
  ⟨Set.Reachable.Add _ _ Set.Reachable.empty, by decide, by decide,
    (fun ⟨_, ht⟩ => by
      rw [show oneInt.subAssignSelf = .error .undefined from by decide] at ht
      cases ht),
    by decide⟩

theorem countP_key_eq_count (l : List α) (k : κ) :
    l.countP (fun e => decide (Key.key e = k)) = (l.map Key.key).count k := by
  rw [List.count, List.countP_map]
  rfl

/-- C19. On a set `A` with the invariant, for an index `i` in range and an
element `x` present at another position `j`, `A.Replace(i, x)` returns (it
neither rejects nor guards the case) a set whose sequence contains `x` twice
and has more elements than the lookup table, so that the assertion of
`Count()` fails on it. -/
theorem Replace_collision (s : Set α) (i j : Nat) (x : α) (h : s.Inv)
    (hi : i < s.Elements_.length) (hj : j < s.Elements_.length) (hij : j ≠ i)
    (hx : Key.key s.Elements_[j] = Key.key x) :
    ∃ t, s.Replace i x = .ok t ∧
      t.Elements_.countP (fun e => decide (Key.key e = Key.key x)) = 2 ∧
      t.ElementsLookup_.card < t.Elements_.length ∧
      t.Count = .error .assertion := by
  have hi2 : i < (s.Elements_.map Key.key).length := by simpa using hi
  have hj2 : j < (s.Elements_.map Key.key).length := by simpa using hj
  have hne : Key.key s.Elements_[i] ≠ Key.key x := by
    intro e
    have h1 : (s.Elements_.map Key.key)[i] = (s.Elements_.map Key.key)[j] := by
      simp only [List.getElem_map]; rw [e, hx]
    have := (h.1.getElem_inj_iff).mp h1
    omega
  have hmem : Key.key x ∈ s.ElementsLookup_ :=
    (Set.mem_lookup_iff h _).mpr ⟨_, List.getElem_mem hj, hx⟩
  have hold : Key.key s.Elements_[i] ∈ s.ElementsLookup_ :=
    (Set.mem_lookup_iff h _).mpr ⟨_, List.getElem_mem hi, rfl⟩
  have hcount : s.Elements_.countP (fun e => decide (Key.key e = Key.key x)) = 1 := by
    rw [countP_key_eq_count]
    apply List.count_eq_one_of_mem h.1
    rw [← hx]
    exact List.mem_map_of_mem _ (List.getElem_mem hj)
  have hcard : (insert (Key.key x) (s.ElementsLookup_.erase (Key.key s.Elements_[i]))).card <
      (s.Elements_.set i x).length := by
    rw [Finset.insert_eq_of_mem (Finset.mem_erase.mpr ⟨fun e => hne e.symm, hmem⟩),
      Finset.card_erase_of_mem hold, Set.card_of_Inv h, List.length_set]
    omega
  refine ⟨⟨s.Elements_.set i x,
    insert (Key.key x) (s.ElementsLookup_.erase (Key.key s.Elements_[i]))⟩, ?_, ?_, hcard, ?_⟩
  · unfold Set.Replace
    rw [List.getElem?_eq_getElem hi]
  · show (s.Elements_.set i x).countP _ = 2
    rw [List.countP_set _ _ _ _ hi, hcount]
    simp [hne]
  · unfold Set.Count
    rw [if_neg]
    exact fun e => (Nat.ne_of_lt hcard) e.symm

theorem Replace_collision_witness :
    threeInts.Inv ∧
    ∃ (hi : 0 < threeInts.Elements_.length) (hj : 2 < threeInts.Elements_.length),
      Key.key threeInts.Elements_[2] = Key.key (9 : Int) ∧
      ∃ t, threeInts.Replace 0 9 = .ok t ∧
        t.Elements_.countP (fun e => decide (Key.key e = Key.key (9 : Int))) = 2 ∧
        t.ElementsLookup_.card < t.Elements_.length ∧
        t.Count = .error .assertion :=
  ⟨by decide, by decide, by decide, by decide,
    Replace_collision threeInts 0 2 9 (by decide) (by decide) (by decide) (by decide)
      (by decide)⟩

end Operators

/-! ## Index safety of MakeBeta -/

theorem foldlM_range_first_error {σ : Type} (body : σ → Nat → Except Fault σ) (e : Fault)
    (m : Nat) (s : σ) (h : body s 0 = .error e) :
    (List.range (m + 1)).foldlM body s = .error e := by
  rw [List.range_succ_eq_map, List.foldlM_cons, h]
  rfl

theorem elements_eq_nil_of_IsEmpty {C : Family} (hC : FamilyInv C) (h : C.IsEmpty = true) :
    C.Elements_ = [] := by
  have hL : C.ElementsLookup_ = ∅ := by simpa [Set.IsEmpty] using h
  have hlen := Set.card_of_Inv hC.1
  rw [hL, Finset.card_empty] at hlen
  exact List.length_eq_zero.mp hlen.symm

theorem MakeD_zero_of_empty {C : Family} (h : C.Elements_ = []) :
    MakeD 0 C = .error .outOfRange := by
  unfold MakeD Set.Get
  rw [h]
  rfl

theorem MakeBeta_of_empty {C : Family} (hC : FamilyInv C) (h : C.Elements_ = []) :
    MakeBeta C = .error .outOfRange := by
  have hu : usub 0 1 = (2 ^ 64 - 2) + 1 := by decide
  unfold MakeBeta
  rw [Set.Count_of_Inv hC.1, Set.card_of_Inv hC.1, ok_bind, h, List.length_nil, hu]
  apply foldlM_range_first_error
  rw [MakeD_zero_of_empty h]
  rfl

/-- C20. On a non-empty family `C` (with the container invariant) `MakeBeta(C)`
and the calls `MakeD(i, C)` it makes, for `i + 1 < Count(C)`, return: none of
their positional accesses is out of range. On the empty family the bound
`Count(C) - 1` wraps around, `MakeBeta` calls `MakeD(0, C)`, and the access
`C[0]` is out of range. So `MakeBeta(C)` makes an out-of-range access if and
only if `C` is empty. -/
theorem MakeBeta_index_safety (C : Family) (hC : FamilyInv C) :
    (C.IsEmpty = false →
      (∃ B, MakeBeta C = .ok B) ∧ ∀ i, i + 1 < C.Elements_.length → ∃ D, MakeD i C = .ok D) ∧
    (C.IsEmpty = true →
      usub C.Elements_.length 1 = 2 ^ 64 - 1 ∧ C.Get 0 = .error .outOfRange ∧
      MakeD 0 C = .error .outOfRange) ∧
    (MakeBeta C = .error .outOfRange ↔ C.IsEmpty = true) := by
  have hne : C.IsEmpty = false → ∃ B, MakeBeta C = .ok B := by
    intro h
    obtain ⟨B, hB, -⟩ := MakeBeta_spec hC (elements_ne_nil_of_not_IsEmpty hC h)
    exact ⟨B, hB⟩
  refine ⟨fun h => ⟨hne h, fun i hi => ?_⟩, fun h => ?_, ?_, ?_⟩
  · obtain ⟨D, hD, -⟩ := MakeD_spec hC (show i < C.Elements_.length by omega)
    exact ⟨D, hD⟩
  · have hnil := elements_eq_nil_of_IsEmpty hC h
    refine ⟨?_, ?_, MakeD_zero_of_empty hnil⟩
    · rw [hnil]; decide
    · unfold Set.Get; rw [hnil]; rfl
  · intro h
    cases hE : C.IsEmpty
    · obtain ⟨B, hB⟩ := hne hE
      rw [hB] at h
      cases h
    · rfl
  · intro h
    exact MakeBeta_of_empty hC (elements_eq_nil_of_IsEmpty hC h)

theorem MakeBeta_index_safety_witness :
    FamilyInv (Set.empty : Family) ∧
    ((Set.empty : Family).IsEmpty = false →
      (∃ B, MakeBeta (Set.empty : Family) = .ok B) ∧
        ∀ i, i + 1 < (Set.empty : Family).Elements_.length →
          ∃ D, MakeD i (Set.empty : Family) = .ok D) ∧
    ((Set.empty : Family).IsEmpty = true →
      usub (Set.empty : Family).Elements_.length 1 = 2 ^ 64 - 1 ∧
      (Set.empty : Family).Get 0 = .error .outOfRange ∧
      MakeD 0 (Set.empty : Family) = .error .outOfRange) ∧
    (MakeBeta (Set.empty : Family) = .error .outOfRange ↔
      (Set.empty : Family).IsEmpty = true) :=
  ⟨by decide, MakeBeta_index_safety Set.empty (by decide)⟩

/-! ## The enumerator of subsets -/

theorem Bitset.value_nil : Bitset.value ⟨[]⟩ = 0 := rfl

theorem Bitset.value_cons (a : Bool) (l : List Bool) :
    Bitset.value ⟨a :: l⟩ = a.toNat + 2 * Bitset.value ⟨l⟩ := by
  unfold Bitset.value
  have hc : Bitset.Count ⟨a :: l⟩ = Bitset.Count ⟨l⟩ + 1 := rfl
  rw [hc, Finset.sum_range_succ', Finset.mul_sum, Nat.add_comm]
  congr 1
  · cases a <;> rfl
  · apply Finset.sum_congr rfl
    intro i _
    have hh : Bitset.Has ⟨a :: l⟩ (i + 1) = Bitset.Has ⟨l⟩ i := rfl
    rw [hh]
    split
    · rw [pow_succ, Nat.mul_comm]
    · rfl

theorem Bitset.incr_spec (l : List Bool) :
    Bitset.value (Bitset.incr ⟨l⟩) = Bitset.value ⟨l⟩ + 1 ∧
    (Bitset.incr ⟨l⟩).Count = (if l.all id then l.length + 1 else l.length) ∧
    (l.all id = true → (Bitset.incr ⟨l⟩).Bits_ = List.replicate l.length false ++ [true]) := by
  induction l with
  | nil => exact ⟨by decide, rfl, fun _ => rfl⟩
  | cons a l ih =>
    cases a
    · rw [Bitset.incr_false]
      refine ⟨?_, rfl, fun h => by simp at h⟩
      rw [Bitset.value_cons, Bitset.value_cons]
      simp
      omega
    · rw [Bitset.incr_true]
      obtain ⟨i1, i2, i3⟩ := ih
      refine ⟨?_, ?_, ?_⟩
      · rw [Bitset.value_cons, Bitset.value_cons, i1]
        simp
        omega
      · have hc : Bitset.Count ⟨false :: (Bitset.incr ⟨l⟩).Bits_⟩ =
            (Bitset.incr ⟨l⟩).Count + 1 := rfl
        rw [hc, i2]
        simp only [List.all_cons, id, Bool.true_and, List.length_cons]
        split <;> rfl
      · intro h
        simp only [List.all_cons, id, Bool.true_and] at h
        rw [i3 h]
        rfl

/-- C12. For every bit vector `b`, of any length and with leading false bits
allowed, the value of `++b` is the value of `b` plus one; the length grows by
exactly one, a true bit being appended, when every bit of `b` is true (the
empty vector included), and is unchanged otherwise. -/
theorem incr_value (b : Bitset) :
    b.incr.value = b.value + 1 ∧
    b.incr.Count = (if b.Bits_.all id then b.Count + 1 else b.Count) ∧
    (b.Bits_.all id = true → b.incr.Bits_ = List.replicate b.Count false ++ [true]) :=
  Bitset.incr_spec b.Bits_

/-- The increment of a vector with a leading false bit: `{true, true, false}`,
of value 3, becomes `{false, false, true}`, of value 4, with the same length. -/
theorem incr_value_padded :
    paddedBits.value = 3 ∧ paddedBits.incr = ⟨[false, false, true]⟩ ∧
    paddedBits.incr.value = 4 := by
  decide

theorem Bitset.value_bits (k : Nat) : Bitset.value ⟨Nat.bits k⟩ = k := by
  induction k using Nat.binaryRec' with
  | z => rw [Nat.zero_bits]; rfl
  | f b n h ih =>
    rw [Nat.bits_append_bit n b h, Bitset.value_cons, ih, Nat.bit_val, Nat.add_comm]

theorem Bitset.visit_spec (n : Nat) :
    ∀ (fuel v : Nat) (visited : List Bitset), v ≤ 2 ^ n → 2 ^ n - v < fuel →
      Bitset.visit n fuel ⟨Nat.bits v⟩ visited =
        .ok (visited ++ (List.range' v (2 ^ n - v)).map (fun k => Bitset.mk (Nat.bits k))) := by
  intro fuel
  induction fuel with
  | zero => intro v visited _ h; omega
  | succ fuel ih =>
    intro v visited hv hf
    rw [Bitset.visit, Bitset.Count_bits]
    have hcond : Nat.size v ≤ n ↔ v < 2 ^ n := Nat.size_le
    by_cases hlt : v < 2 ^ n
    · rw [if_pos (hcond.mpr hlt), Bitset.incr_bits, ih (v + 1) _ (by omega) (by omega)]
      have e : 2 ^ n - v = (2 ^ n - (v + 1)) + 1 := by omega
      rw [e, List.range'_succ, List.map_cons, List.append_assoc]
      rfl
    · rw [if_neg (fun h => hlt (hcond.mp h))]
      have e : 2 ^ n - v = 0 := by omega
      rw [e]
      simp

theorem Bitset.enumerate_eq (n fuel : Nat) (hfuel : 2 ^ n + 1 ≤ fuel) :
    Bitset.enumerate n fuel =
      .ok ((List.range (2 ^ n)).map (fun k => Bitset.mk (Nat.bits k))) := by
  unfold Bitset.enumerate
  rw [← Nat.zero_bits,
    Bitset.visit_spec n fuel 0 [] (Nat.zero_le _) (by rw [Nat.sub_zero]; exact hfuel),
    List.nil_append, Nat.sub_zero, List.range_eq_range']

theorem getElem?_range_map_bits {N k : Nat} (hk : k < N) :
    ((List.range N).map (fun k => Bitset.mk (Nat.bits k)))[k]? = some ⟨Nat.bits k⟩ := by
  rw [List.getElem?_map, List.getElem?_range hk]
  rfl

/-- C11. For every `n`, the loop that starts from the default-constructed
`Bitset` and applies `operator++` while `Count() <= n` ends after visiting
exactly `2 ^ n` patterns (given room for its `2 ^ n + 1` tests); the `k`-th
pattern visited has `Has(i)` equal to bit `i` of `k` and has the value `k`, so
the patterns come in strictly increasing binary order and are pairwise
distinct, and the all-false pattern and the pattern that is true on every
index below `n` are each visited at exactly one position. -/
theorem enumerate_coverage (n fuel : Nat) (hfuel : 2 ^ n + 1 ≤ fuel) :
    ∃ visited, Bitset.enumerate n fuel = .ok visited ∧ visited.length = 2 ^ n ∧
      (∀ k, k < 2 ^ n →
        ∃ b, visited[k]? = some b ∧ b.value = k ∧ ∀ i, b.Has i = k.testBit i) ∧
      visited.Pairwise (fun a b => a.value < b.value) ∧ visited.Nodup ∧
      (∃! k, k < 2 ^ n ∧ ∃ b, visited[k]? = some b ∧ ∀ i, b.Has i = false) ∧
      (∃! k, k < 2 ^ n ∧ ∃ b, visited[k]? = some b ∧ ∀ i, i < n → b.Has i = true) := by
  have hpair : ((List.range (2 ^ n)).map (fun k => Bitset.mk (Nat.bits k))).Pairwise
      (fun a b => a.value < b.value) := by
    rw [List.pairwise_map]
    refine (List.pairwise_lt_range (2 ^ n)).imp ?_
    intro a b hab
    rw [Bitset.value_bits, Bitset.value_bits]
    exact hab
  have hpos : 0 < 2 ^ n := Nat.one_le_two_pow
  refine ⟨_, Bitset.enumerate_eq n fuel hfuel, by simp, ?_, hpair, ?_, ?_, ?_⟩
  · intro k hk
    exact ⟨_, getElem?_range_map_bits hk, Bitset.value_bits k, Bitset.Has_bits k⟩
  · refine hpair.imp ?_
    intro a b hab e
    rw [e] at hab
    exact Nat.lt_irrefl _ hab
  · refine ⟨0, ⟨hpos, _, getElem?_range_map_bits hpos, fun i => ?_⟩, ?_⟩
    · rw [Bitset.Has_bits, Nat.zero_testBit]
    · rintro k ⟨hk, b, hb, hall⟩
      rw [getElem?_range_map_bits hk, Option.some.injEq] at hb
      subst hb
      apply Nat.eq_of_testBit_eq
      intro i
      rw [← Bitset.Has_bits, hall, Nat.zero_testBit]
  · refine ⟨2 ^ n - 1, ⟨by omega, _, getElem?_range_map_bits (by omega), fun i hi => ?_⟩, ?_⟩
    · rw [Bitset.Has_bits, Nat.testBit_two_pow_sub_one]
      exact decide_eq_true hi
    · rintro k ⟨hk, b, hb, hall⟩
      rw [getElem?_range_map_bits hk, Option.some.injEq] at hb
      subst hb
      apply Nat.eq_of_testBit_eq
      intro i
      rw [Nat.testBit_two_pow_sub_one]
      by_cases hi : i < n
      · rw [← Bitset.Has_bits, hall i hi]
        exact (decide_eq_true hi).symm
      · rw [testBit_false_of_lt hk (Nat.le_of_not_lt hi)]
        exact (decide_eq_false hi).symm

theorem enumerate_coverage_witness :
    (2 ^ 2 + 1 ≤ 5 ∧
      Bitset.enumerate 2 5 = .ok [⟨[]⟩, ⟨[true]⟩, ⟨[false, true]⟩, ⟨[true, true]⟩]) ∧
    ∃ visited, Bitset.enumerate 2 5 = .ok visited ∧ visited.length = 2 ^ 2 ∧
      (∀ k, k < 2 ^ 2 →
        ∃ b, visited[k]? = some b ∧ b.value = k ∧ ∀ i, b.Has i = k.testBit i) ∧
      visited.Pairwise (fun a b => a.value < b.value) ∧ visited.Nodup ∧
      (∃! k, k < 2 ^ 2 ∧ ∃ b, visited[k]? = some b ∧ ∀ i, b.Has i = false) ∧
      (∃! k, k < 2 ^ 2 ∧ ∃ b, visited[k]? = some b ∧ ∀ i, i < 2 → b.Has i = true) :=
  ⟨by decide, enumerate_coverage 2 5 (by decide)⟩

end UnionClosed
